import Mathlib

/-!
# Resource aggregation of a pod specification

A verification development of `pkg/resource.go` (package `resource`) of
`kubectl-container-resource-aggregator`.

Go values of type `interface{}` coming out of the manifest decoder are embedded
as the inductive type `Value`; Go maps are embedded as association lists that
are read with `mapGet` (first binding of a key) and written with `mapSet`
(overwrite in place, else append).  A `range` loop over a map visits the
entries in list order; Go leaves the order unspecified, and every loop of the
program only touches the key it visits.  `AggregateIn` runs the same loops in
an arbitrary order, to compare invocations.  The six maps of a `Summary` are
passed explicitly as state.  `resource.Quantity` of `k8s.io/apimachinery` is an
exact fixed-point magnitude together with the suffix family it was written in.
-/

namespace Aggregator

/-! ## Go maps as association lists -/

/-- Reading `m[k]` with the comma-ok form: the value bound to `k`, if any. -/
def mapGet {β : Type} (k : String) : List (String × β) → Option β
  | [] => none
  | (k', v) :: rest => if k' = k then some v else mapGet k rest

/-- Writing `m[k] = v`: overwrite the binding of `k`, or add one. -/
def mapSet {β : Type} (k : String) (v : β) : List (String × β) → List (String × β)
  | [] => [(k, v)]
  | (k', v') :: rest => if k' = k then (k, v) :: rest else (k', v') :: mapSet k v rest

/-- The keys of a map, in the order in which `range` visits them in this model. -/
def mapKeys {β : Type} (m : List (String × β)) : List String := m.map Prod.fst

/-! ## Quantities -/

/-- The suffix family a quantity was written in (`resource.Format`). -/
inductive Format where
  | DecimalSI
  | BinarySI
  deriving DecidableEq, Repr

/-- Modelled from the spec: `resource.Quantity` of `k8s.io/apimachinery`, which is
not part of this repository.  A fixed-point magnitude counted in nano-units (the
smallest unit suffix), so that comparison and addition are exact, and the suffix
family of its textual form. -/
structure Quantity where
  nanos : Int
  format : Format
  deriving DecidableEq, Repr

/-- Modelled from the spec: `Quantity.Cmp`, comparison of true magnitude
irrespective of suffix; `-1`, `0` or `1`. -/
def Quantity.Cmp (q y : Quantity) : Int :=
  if q.nanos < y.nanos then -1 else if q.nanos = y.nanos then 0 else 1

/-- Modelled from the spec: `Quantity.Add`, exact magnitude addition.  The sum
keeps the receiver's suffix family unless the receiver is zero. -/
def Quantity.Add (q y : Quantity) : Quantity :=
  { nanos := q.nanos + y.nanos
    format := if q.nanos = 0 then y.format else q.format }

/-- Modelled from the spec: part of `resource.ParseQuantity`, the numeric value
of a decimal digit character. -/
def digitVal (c : Char) : Option Nat :=
  if c.isDigit then some (c.toNat - 48) else none

/-- Modelled from the spec: part of `resource.ParseQuantity`, reading a maximal
run of decimal digits: its value, its length, and the rest of the text. -/
def takeDigits : List Char → Nat → Nat → Nat × Nat × List Char
  | [], acc, len => (acc, len, [])
  | c :: cs, acc, len =>
    match digitVal c with
    | some d => takeDigits cs (acc * 10 + d) (len + 1)
    | none => (acc, len, c :: cs)

/-- Modelled from the spec: the unit suffixes of a quantity, decimal SI
(`n u m "" k M G T P E`, powers of ten) and binary IEC (`Ki Mi Gi Ti Pi Ei`,
powers of 1024), each with the number of nano-units in one such unit. -/
def suffixScale : List Char → Option (Nat × Format)
  | [] => some (10 ^ 9, .DecimalSI)
  | ['n'] => some (1, .DecimalSI)
  | ['u'] => some (10 ^ 3, .DecimalSI)
  | ['m'] => some (10 ^ 6, .DecimalSI)
  | ['k'] => some (10 ^ 12, .DecimalSI)
  | ['M'] => some (10 ^ 15, .DecimalSI)
  | ['G'] => some (10 ^ 18, .DecimalSI)
  | ['T'] => some (10 ^ 21, .DecimalSI)
  | ['P'] => some (10 ^ 24, .DecimalSI)
  | ['E'] => some (10 ^ 27, .DecimalSI)
  | ['K', 'i'] => some (1024 * 10 ^ 9, .BinarySI)
  | ['M', 'i'] => some (1024 ^ 2 * 10 ^ 9, .BinarySI)
  | ['G', 'i'] => some (1024 ^ 3 * 10 ^ 9, .BinarySI)
  | ['T', 'i'] => some (1024 ^ 4 * 10 ^ 9, .BinarySI)
  | ['P', 'i'] => some (1024 ^ 5 * 10 ^ 9, .BinarySI)
  | ['E', 'i'] => some (1024 ^ 6 * 10 ^ 9, .BinarySI)
  | _ => none

/-- Modelled from the spec: part of `resource.ParseQuantity`, splitting an
optional leading sign off a literal: `true` for a negative one. -/
def takeSign : List Char → Bool × List Char
  | '-' :: cs => (true, cs)
  | '+' :: cs => (false, cs)
  | cs => (false, cs)

/-- Modelled from the spec: `resource.ParseQuantity` of `k8s.io/apimachinery`,
which is not part of this repository.  A decimal numeric literal (optional sign,
digits, optional fractional part) optionally followed by a unit suffix; `none`
stands for the parse error of a text that is not a valid number or whose suffix
is not recognised.  The magnitude is `digits * scale / 10 ^ fractionLength`
nano-units; a literal finer than one nano-unit is rounded up to the next one. -/
def ParseQuantity (text : String) : Option Quantity :=
  let (neg, body) := takeSign text.toList
  let (whole, wlen, afterWhole) := takeDigits body 0 0
  let (frac, flen, afterFrac) :=
    match afterWhole with
    | '.' :: cs => takeDigits cs 0 0
    | cs => (0, 0, cs)
  if wlen + flen = 0 then none
  else
    match suffixScale afterFrac with
    | none => none
    | some (scale, fmt) =>
      let mag : Nat := ((whole * 10 ^ flen + frac) * scale + (10 ^ flen - 1)) / 10 ^ flen
      some { nanos := if neg then -(Int.ofNat mag) else Int.ofNat mag, format := fmt }

/-! ## Decoded manifest values -/

/-- A value of Go type `interface{}` as the manifest decoder produces it.  A
`float64` leaf is kept as the text that `%v` prints for it. -/
inductive Value where
  | null
  | bool (b : Bool)
  | int (n : Int)
  | float (text : String)
  | str (s : String)
  | list (items : List Value)
  | map (entries : List (String × Value))

/-- Inserts a rendered map entry into a list of entries sorted by key. -/
def insertByKey (e : String × String) : List (String × String) → List (String × String)
  | [] => [e]
  | e' :: rest => if e.1 < e'.1 then e :: e' :: rest else e' :: insertByKey e rest

/-- The text `k1:v1 k2:v2 ...` of rendered map entries, by ascending key. -/
def joinEntries (es : List (String × String)) : String :=
  " ".intercalate ((es.foldr insertByKey []).map fun e => e.1 ++ ":" ++ e.2)

mutual
/-- The text of `fmt.Sprintf("%v", v)`. -/
def sprintV : Value → String
  | .null => "<nil>"
  | .bool b => if b then "true" else "false"
  | .int n => toString n
  | .float text => text
  | .str s => s
  | .list items => "[" ++ " ".intercalate (sprintItems items) ++ "]"
  | .map entries => "map[" ++ joinEntries (sprintEntries entries) ++ "]"
/-- The `%v` texts of the elements of a slice. -/
def sprintItems : List Value → List String
  | [] => []
  | v :: rest => sprintV v :: sprintItems rest
/-- The keys of a map with the `%v` texts of their values. -/
def sprintEntries : List (String × Value) → List (String × String)
  | [] => []
  | (k, v) :: rest => (k, sprintV v) :: sprintEntries rest
end

/-- The type assertion `v.(map[string]interface{})` with the comma-ok form; a
failed assertion leaves the nil map, which reads and ranges as the empty map. -/
def asMap : Option Value → List (String × Value)
  | some (.map entries) => entries
  | _ => []

/-! ## The summary and its aggregation -/

/-- A Go `map[string]resource.Quantity`. -/
abbrev QMap := List (String × Quantity)

/-- The six mappings from resource name to quantity. -/
structure Summary where
  TotalRequests : QMap
  TotalLimits : QMap
  InitMaxRequests : QMap
  InitMaxLimits : QMap
  EffectiveRequests : QMap
  EffectiveLimits : QMap
  deriving DecidableEq, Repr

/-- A fresh summary: six empty maps. -/
def NewSummary : Summary :=
  { TotalRequests := [], TotalLimits := [], InitMaxRequests := [],
    InitMaxLimits := [], EffectiveRequests := [], EffectiveLimits := [] }

/-- The structural error of `unstructured.NestedSlice`: the value under the
field is not a `[]interface{}`. -/
structure AccessorError where
  field : String
  deriving DecidableEq, Repr

/-- The error `Aggregate` returns: the accessor error wrapped with the name of
the list field that could not be read. -/
structure AggregateError where
  field : String
  cause : AccessorError
  deriving DecidableEq, Repr

/-- Modelled from the spec: `unstructured.NestedSlice` of `k8s.io/apimachinery`,
which is not part of this repository, called with one field name: an error when
the key is bound to something that is not a sequence, `none` when the key is not
bound (not found), the sequence otherwise. -/
def NestedSlice (obj : List (String × Value)) (field : String) :
    Except AccessorError (Option (List Value)) :=
  match mapGet field obj with
  | none => .ok none
  | some (.list items) => .ok (some items)
  | some _ => .error { field := field }

/-- The map of the summary that a resource type and a phase write to. -/
def getTargetMap (rt : String) (s : Summary) (isInit : Bool) : QMap :=
  if isInit then
    if rt = "requests" then s.InitMaxRequests else s.InitMaxLimits
  else
    if rt = "requests" then s.TotalRequests else s.TotalLimits

/-- Go maps are references: a write through the map returned by `getTargetMap`
is a write to that field of the summary. -/
def setTargetMap (rt : String) (s : Summary) (isInit : Bool) (m : QMap) : Summary :=
  if isInit then
    if rt = "requests" then { s with InitMaxRequests := m } else { s with InitMaxLimits := m }
  else
    if rt = "requests" then { s with TotalRequests := m } else { s with TotalLimits := m }

/-- One iteration of the loop of `updateMax`: the entry is stored when its name
is unseen or its quantity compares strictly greater than the stored one. -/
def updateMaxStep (dest : QMap) (kv : String × Quantity) : QMap :=
  match mapGet kv.1 dest with
  | some current => if kv.2.Cmp current > 0 then mapSet kv.1 kv.2 dest else dest
  | none => mapSet kv.1 kv.2 dest

/-- Keeps, per resource name, the larger of the stored and the new quantity. -/
def updateMax (dest src : QMap) : QMap :=
  src.foldl updateMaxStep dest

/-- One iteration of the loop of `sumValues`: the entry is added to the stored
quantity, or stored when its name is unseen. -/
def sumValuesStep (dest : QMap) (kv : String × Quantity) : QMap :=
  match mapGet kv.1 dest with
  | some current => mapSet kv.1 (current.Add kv.2) dest
  | none => mapSet kv.1 kv.2 dest

/-- Adds, per resource name, the new quantity to the stored one. -/
def sumValues (dest src : QMap) : QMap :=
  src.foldl sumValuesStep dest

/-- One iteration of the parsing loop of `processResource`: the entry is kept
when the `%v` text of its value parses as a quantity. -/
def parseEntry (qtyMap : QMap) (kv : String × Value) : QMap :=
  match ParseQuantity (sprintV kv.2) with
  | some qty => mapSet kv.1 qty qtyMap
  | none => qtyMap

/-- The loop of `processResource` that parses the entries of a `requests` or
`limits` map and keeps those that parse. -/
def parseEntries (resources : List (String × Value)) : QMap :=
  resources.foldl parseEntry []

/-- Folds the `rt` entries of one container's resources into the summary. -/
def processResource (res : List (String × Value)) (rt : String) (s : Summary) (isInit : Bool)
    (initFn mainFn : QMap → QMap → QMap) : Summary :=
  let resources := asMap (mapGet rt res)
  let qtyMap := parseEntries resources
  if isInit then
    setTargetMap rt s true (initFn (getTargetMap rt s true) qtyMap)
  else
    setTargetMap rt s false (mainFn (getTargetMap rt s false) qtyMap)

/-- The body of the loop of `processContainers` for one element of the list. -/
def processContainer (s : Summary) (isInit : Bool) (c : Value) : Summary :=
  match c with
  | .map container =>
    let res := asMap (mapGet "resources" container)
    let s1 := processResource res "requests" s isInit updateMax sumValues
    processResource res "limits" s1 isInit updateMax sumValues
  | _ => s

/-- Walks the container list named `field` of the pod spec. -/
def processContainers (podSpec : List (String × Value)) (field : String) (s : Summary)
    (isInit : Bool) : Except AggregateError Summary :=
  match NestedSlice podSpec field with
  | .error err => .error { field := field, cause := err }
  | .ok none => .ok s
  | .ok (some containers) => .ok (containers.foldl (fun s c => processContainer s isInit c) s)

/-- One iteration of a loop of `calculateEffective`: the total when it exists
and compares strictly greater than the init maximum, else the init maximum. -/
def effectiveStep (total : QMap) (effective : QMap) (kv : String × Quantity) : QMap :=
  match mapGet kv.1 total with
  | some t => if t.Cmp kv.2 > 0 then mapSet kv.1 t effective else mapSet kv.1 kv.2 effective
  | none => mapSet kv.1 kv.2 effective

/-- The loop of `calculateEffective` over one init-max map. -/
def effectiveOf (initMax total effective : QMap) : QMap :=
  initMax.foldl (effectiveStep total) effective

/-- Derives the effective maps from the totals and the init maxima. -/
def calculateEffective (s : Summary) : Summary :=
  let s1 := { s with
    EffectiveRequests := effectiveOf s.InitMaxRequests s.TotalRequests s.EffectiveRequests }
  { s1 with EffectiveLimits := effectiveOf s1.InitMaxLimits s1.TotalLimits s1.EffectiveLimits }

/-- The aggregation of a pod spec: a summary, or the error of a list field of
the wrong shape. -/
def Aggregate (podSpec : List (String × Value)) : Except AggregateError Summary :=
  match processContainers podSpec "initContainers" NewSummary true with
  | .error err => .error err
  | .ok s1 =>
    match processContainers podSpec "containers" s1 false with
    | .error err => .error err
    | .ok s2 => .ok (calculateEffective s2)

/-! ## Vocabulary of the specification -/

/-- Distinct keys, the representation invariant of an association list that
stands for a Go map. -/
def DistinctKeys {β : Type} (m : List (String × β)) : Prop := (mapKeys m).Nodup

instance {β : Type} (m : List (String × β)) : Decidable (DistinctKeys m) :=
  inferInstanceAs (Decidable (mapKeys m).Nodup)

/-- The containers listed under a field of the pod spec: the elements of the
sequence, none when the field is absent. -/
def containersOf (podSpec : List (String × Value)) (field : String) : List Value :=
  match mapGet field podSpec with
  | some (.list items) => items
  | _ => []

/-- A list field of the pod spec that is present but is not a sequence. -/
def notSequence (podSpec : List (String × Value)) (field : String) : Bool :=
  match mapGet field podSpec with
  | none => false
  | some (.list _) => false
  | some _ => true

/-- The `requests` or `limits` entries of a container, resource name to raw
value; none when the container, its `resources` or the field is not a mapping. -/
def entriesOf (c : Value) (rt : String) : List (String × Value) :=
  match c with
  | .map container => asMap (mapGet rt (asMap (mapGet "resources" container)))
  | _ => []

/-- The quantity a raw value stands for, when its text parses. -/
def quantityOf (v : Value) : Option Quantity := ParseQuantity (sprintV v)

/-- The parseable `requests` or `limits` entry of a container for a resource
name, if it has one. -/
def entryOf (c : Value) (rt r : String) : Option Quantity :=
  (mapGet r (entriesOf c rt)).bind quantityOf

/-- The effective value in the words of the specification: the total if it
exists and is strictly greater in magnitude than the init maximum, else the
init maximum. -/
def effectiveValue (total : Option Quantity) (initMax : Quantity) : Quantity :=
  match total with
  | some t => if initMax.nanos < t.nanos then t else initMax
  | none => initMax

/-- The quantities one container contributes for `requests` or `limits`: its
entries that parse, as `processResource` collects them. -/
def quantitiesOf (c : Value) (rt : String) : QMap := parseEntries (entriesOf c rt)

/-- The larger of a stored quantity, if any, and a new one; the stored one on a tie. -/
def keepMax (stored : Option Quantity) (v : Quantity) : Quantity :=
  match stored with
  | some current => if v.Cmp current > 0 then v else current
  | none => v

/-- The sum of a stored quantity, if any, and a new one. -/
def addTo (stored : Option Quantity) (v : Quantity) : Quantity :=
  match stored with
  | some current => current.Add v
  | none => v

/-- The running maximum of one field over a list of containers. -/
def foldMax (rt : String) (cs : List Value) (m : QMap) : QMap :=
  cs.foldl (fun m c => updateMax m (quantitiesOf c rt)) m

/-- The running sum of one field over a list of containers. -/
def foldSum (rt : String) (cs : List Value) (m : QMap) : QMap :=
  cs.foldl (fun m c => sumValues m (quantitiesOf c rt)) m

/-- The summary after both container lists have been walked, before the
effective values are derived. -/
def collect (inits mains : List Value) : Summary :=
  { TotalRequests := foldSum "requests" mains []
    TotalLimits := foldSum "limits" mains []
    InitMaxRequests := foldMax "requests" inits []
    InitMaxLimits := foldMax "limits" inits []
    EffectiveRequests := []
    EffectiveLimits := [] }

/-- The entries of a `requests` or `limits` map whose value parses as a quantity. -/
def dropUnparsable (entries : List (String × Value)) : List (String × Value) :=
  entries.filter (fun kv => (quantityOf kv.2).isSome)

/-- The container with every entry whose value fails to parse deleted from its
`rt` map; a container without such a map is left as it is. -/
def stripUnparsable (c : Value) (rt : String) : Value :=
  match c with
  | .map container =>
    match mapGet "resources" container with
    | some (.map res) =>
      match mapGet rt res with
      | some (.map entries) =>
        .map (mapSet "resources" (.map (mapSet rt (.map (dropUnparsable entries)) res)) container)
      | _ => c
    | _ => c
  | _ => c

/-- The container with an absent `resources` field replaced by an empty mapping. -/
def withEmptyResources (c : Value) : Value :=
  match c with
  | .map container =>
    match mapGet "resources" container with
    | none => .map (mapSet "resources" (.map []) container)
    | some _ => c
  | _ => c

/-- The container with an absent `rt` field of its `resources` replaced by an
empty mapping. -/
def withEmptyField (c : Value) (rt : String) : Value :=
  match c with
  | .map container =>
    match mapGet "resources" container with
    | some (.map res) =>
      match mapGet rt res with
      | none => .map (mapSet "resources" (.map (mapSet rt (.map []) res)) container)
      | some _ => c
    | _ => c
  | _ => c

/-! ## Example pod specs -/

/-- A container whose resources carry the given `requests` and `limits` entries. -/
def containerWith (requests limits : List (String × Value)) : Value :=
  .map [("name", .str "app"),
    ("resources", .map [("requests", .map requests), ("limits", .map limits)])]

/-- Init containers asking for 200m and 900m of cpu and 512Mi of memory, main
containers asking for 100m, 250m and 150m of cpu and 300Mi of memory. -/
def podMixed : List (String × Value) :=
  [("initContainers", .list
      [containerWith [("cpu", .str "200m"), ("memory", .str "512Mi")] [("cpu", .str "1")],
       containerWith [("cpu", .str "900m")] []]),
   ("containers", .list
      [containerWith [("cpu", .str "100m"), ("memory", .str "300Mi")] [("cpu", .str "2")],
       containerWith [("cpu", .str "250m")] [],
       containerWith [("cpu", .str "150m")] []])]

/-- The summary of `podMixed`. -/
def summaryMixed : Summary :=
  { TotalRequests := [("cpu", ⟨500000000, .DecimalSI⟩), ("memory", ⟨314572800000000000, .BinarySI⟩)]
    TotalLimits := [("cpu", ⟨2000000000, .DecimalSI⟩)]
    InitMaxRequests := [("cpu", ⟨900000000, .DecimalSI⟩), ("memory", ⟨536870912000000000, .BinarySI⟩)]
    InitMaxLimits := [("cpu", ⟨1000000000, .DecimalSI⟩)]
    EffectiveRequests := [("cpu", ⟨900000000, .DecimalSI⟩), ("memory", ⟨536870912000000000, .BinarySI⟩)]
    EffectiveLimits := [("cpu", ⟨2000000000, .DecimalSI⟩)] }

/-- A pod with no init containers and one main container asking for 100m of cpu. -/
def podMainOnly : List (String × Value) :=
  [("containers", .list [containerWith [("cpu", .str "100m")] []])]

/-- A pod whose `containers` field is a string, after a valid init container list. -/
def podBadContainers : List (String × Value) :=
  [("initContainers", .list [containerWith [("cpu", .str "200m")] []]),
   ("containers", .str "none")]

/-- A pod whose containers specify requests only. -/
def podRequestsOnly : List (String × Value) :=
  [("initContainers", .list
      [.map [("resources", .map [("requests", .map [("cpu", .str "200m")])])]]),
   ("containers", .list
      [.map [("resources", .map [("requests", .map [("cpu", .str "100m")])])],
       .map [("name", .str "sidecar")]])]

/-- The summary of `podRequestsOnly`. -/
def summaryRequestsOnly : Summary :=
  { TotalRequests := [("cpu", ⟨100000000, .DecimalSI⟩)]
    TotalLimits := []
    InitMaxRequests := [("cpu", ⟨200000000, .DecimalSI⟩)]
    InitMaxLimits := []
    EffectiveRequests := [("cpu", ⟨200000000, .DecimalSI⟩)]
    EffectiveLimits := [] }

/-- A main container with one unparsable and one valid requests entry, next to a
container without resources. -/
def podMalformed : List (String × Value) :=
  [("containers", .list
      [.map [("name", .str "sidecar")],
       containerWith [("cpu", .str "lots"), ("memory", .str "64Mi")] [("cpu", .str "1")]])]

/-- The summary of `podMalformed`. -/
def summaryMalformed : Summary :=
  { TotalRequests := [("memory", ⟨67108864000000000, .BinarySI⟩)]
    TotalLimits := [("cpu", ⟨1000000000, .DecimalSI⟩)]
    InitMaxRequests := []
    InitMaxLimits := []
    EffectiveRequests := []
    EffectiveLimits := [] }

/-- Whether an element of a container list is a mapping. -/
def isMapping : Value → Bool
  | .map _ => true
  | _ => false

/-- The pod spec with the elements that are not mappings removed from the
sequence under `field`; a field that is absent or not a sequence is left alone. -/
def keepMappings (podSpec : List (String × Value)) (field : String) : List (String × Value) :=
  match mapGet field podSpec with
  | some (.list items) => mapSet field (.list (items.filter isMapping)) podSpec
  | _ => podSpec

/-- The pod spec with the elements that are not mappings removed from both
container lists. -/
def onlyMappings (podSpec : List (String × Value)) : List (String × Value) :=
  keepMappings (keepMappings podSpec "initContainers") "containers"

/-- A pod whose lists hold, next to a container, elements that are not mappings. -/
def podWithStrays : List (String × Value) :=
  [("initContainers", .list [.int 3]),
   ("containers", .list [.str "oops", containerWith [("cpu", .str "100m")] [], .null])]

/-- The container with the entry for `k` in its `rt` map set to `v`; a container
without such a map is left as it is. -/
def setEntry (c : Value) (rt k : String) (v : Value) : Value :=
  match c with
  | .map container =>
    match mapGet "resources" container with
    | some (.map res) =>
      match mapGet rt res with
      | some (.map entries) =>
        .map (mapSet "resources" (.map (mapSet rt (.map (mapSet k v entries)) res)) container)
      | _ => c
    | _ => c
  | _ => c

/-- The magnitude, in nano-units, that a map binds to a resource name, if any. -/
def magnitudeAt (m : QMap) (r : String) : Option Int := (mapGet r m).map Quantity.nanos

/-- Two summaries with the same keys and, under every key, quantities of the
same magnitude, in all six maps. -/
def SameMagnitudes (s s' : Summary) : Prop :=
  ∀ r, magnitudeAt s.TotalRequests r = magnitudeAt s'.TotalRequests r ∧
    magnitudeAt s.TotalLimits r = magnitudeAt s'.TotalLimits r ∧
    magnitudeAt s.InitMaxRequests r = magnitudeAt s'.InitMaxRequests r ∧
    magnitudeAt s.InitMaxLimits r = magnitudeAt s'.InitMaxLimits r ∧
    magnitudeAt s.EffectiveRequests r = magnitudeAt s'.EffectiveRequests r ∧
    magnitudeAt s.EffectiveLimits r = magnitudeAt s'.EffectiveLimits r

/-- Two init containers asking for the same amount of memory, written "1Gi"
by the first and "1073741824" by the second. -/
def podTie : List (String × Value) :=
  [("initContainers", .list
      [containerWith [("memory", .str "1Gi")] [],
       containerWith [("memory", .str "1073741824")] []])]

/-- The summary of `podTie`: the first of the two equal quantities is kept. -/
def summaryTie : Summary :=
  { TotalRequests := []
    TotalLimits := []
    InitMaxRequests := [("memory", ⟨1073741824000000000, .BinarySI⟩)]
    InitMaxLimits := []
    EffectiveRequests := [("memory", ⟨1073741824000000000, .BinarySI⟩)]
    EffectiveLimits := [] }

/-- The init containers of `podTie` in the other order. -/
def podTieSwapped : List (String × Value) :=
  [("initContainers", .list
      [containerWith [("memory", .str "1073741824")] [],
       containerWith [("memory", .str "1Gi")] []])]

/-- A main container asking for "1" cpu and an init container limited to "1" cpu. -/
def podOneCpu : List (String × Value) :=
  [("initContainers", .list [containerWith [] [("cpu", .str "1")]]),
   ("containers", .list [containerWith [("cpu", .str "1")] []])]

/-! ## The report (`Summary.Format`) -/

/-- The library function `sort.Strings`: the names in ascending order, compared
as sequences of characters. -/
def sortStrings (names : List String) : List String :=
  names.insertionSort (fun a b => a.toList ≤ b.toList)

/-- One iteration of the loop of `Format`: the block of one resource name
appended to the result.  `render` is the text that `fmt.Sprintf("%s", q)` prints
for the quantity read from a map, `none` standing for the zero quantity that
reading an absent key gives. -/
def formatStep (render : Option Quantity → String) (s : Summary) (result res : String) :
    String :=
  let result := result ++ (res ++ ":\n")
  let result := result ++ ("  InitMax Requests: " ++ render (mapGet res s.InitMaxRequests) ++ "\n")
  let result := result ++ ("  Total Requests:   " ++ render (mapGet res s.TotalRequests) ++ "\n")
  let result :=
    result ++ ("  Effective Request: " ++ render (mapGet res s.EffectiveRequests) ++ "\n")
  let result :=
    match mapGet res s.EffectiveLimits with
    | some lim =>
      let result :=
        result ++ ("  InitMax Limits:   " ++ render (mapGet res s.InitMaxLimits) ++ "\n")
      let result :=
        result ++ ("  Total Limits:     " ++ render (mapGet res s.TotalLimits) ++ "\n")
      result ++ ("  Effective Limit:  " ++ render (some lim) ++ "\n")
    | none => result
  result ++ "\n"

/-- The report of a summary: the keys of `EffectiveRequests` are collected and
sorted, and a block is appended for each. -/
def Summary.Format (render : Option Quantity → String) (s : Summary) : String :=
  let resources := sortStrings (mapKeys s.EffectiveRequests)
  resources.foldl (formatStep render s) ""

/-- The heading and the three request lines of the block of a resource name. -/
def requestLines (render : Option Quantity → String) (s : Summary) (res : String) :
    List String :=
  [res ++ ":",
   "  InitMax Requests: " ++ render (mapGet res s.InitMaxRequests),
   "  Total Requests:   " ++ render (mapGet res s.TotalRequests),
   "  Effective Request: " ++ render (mapGet res s.EffectiveRequests)]

/-- The three limits lines of the block of a resource name. -/
def limitLines (render : Option Quantity → String) (s : Summary) (res : String) :
    List String :=
  ["  InitMax Limits:   " ++ render (mapGet res s.InitMaxLimits),
   "  Total Limits:     " ++ render (mapGet res s.TotalLimits),
   "  Effective Limit:  " ++ render (mapGet res s.EffectiveLimits)]

/-- The block of a resource name in the words of the specification: heading and
request lines, the limits lines exactly when the name is a key of
`EffectiveLimits`, and an empty line. -/
def blockLines (render : Option Quantity → String) (s : Summary) (res : String) :
    List String :=
  requestLines render s res ++
    (if res ∈ mapKeys s.EffectiveLimits then limitLines render s res else []) ++ [""]

/-- The text of a list of lines, each ended by a newline. -/
def unlines : List String → String
  | [] => ""
  | line :: rest => line ++ "\n" ++ unlines rest

/-- The concatenation of a list of texts. -/
def concatAll : List String → String
  | [] => ""
  | text :: rest => text ++ concatAll rest

/-- A rendering of quantities for the examples: the magnitude in nano-units. -/
def renderNanos : Option Quantity → String
  | some q => toString q.nanos ++ "n"
  | none => "0"

/-- A summary with memory and cpu among the effective requests, cpu alone among
the effective limits, and a gpu limit without an effective request. -/
def summaryReport : Summary :=
  { TotalRequests := [("cpu", ⟨5, .DecimalSI⟩)]
    TotalLimits := [("gpu", ⟨1, .DecimalSI⟩)]
    InitMaxRequests := [("memory", ⟨7, .BinarySI⟩), ("cpu", ⟨9, .DecimalSI⟩)]
    InitMaxLimits := [("cpu", ⟨2, .DecimalSI⟩)]
    EffectiveRequests := [("memory", ⟨7, .BinarySI⟩), ("cpu", ⟨9, .DecimalSI⟩)]
    EffectiveLimits := [("cpu", ⟨2, .DecimalSI⟩), ("gpu", ⟨1, .DecimalSI⟩)] }

/-! ## The order of `range` over a map -/

/-- The orders in which the `range` loops of one invocation visit the entries of
their maps, which Go leaves unspecified: a rearrangement for the parsing loop
and for the `updateMax` or `sumValues` loop of every call of `processResource`
(told apart by phase, position of the container and resource type), and for
the two loops of `calculateEffective`. -/
structure RangeOrder where
  entries : Bool → Nat → String → List (String × Value) → List (String × Value)
  quantities : Bool → Nat → String → QMap → QMap
  effective : String → QMap → QMap

/-- Every loop visits each entry of its map exactly once. -/
def RangeOrder.Valid (o : RangeOrder) : Prop :=
  (∀ isInit i rt m, (o.entries isInit i rt m).Perm m) ∧
    (∀ isInit i rt m, (o.quantities isInit i rt m).Perm m) ∧
    ∀ rt m, (o.effective rt m).Perm m

/-- Every loop visits the entries in list order. -/
def listOrder : RangeOrder :=
  { entries := fun _ _ _ m => m, quantities := fun _ _ _ m => m, effective := fun _ m => m }

/-- Every loop visits the entries in reverse list order. -/
def reverseOrder : RangeOrder :=
  { entries := fun _ _ _ m => m.reverse
    quantities := fun _ _ _ m => m.reverse
    effective := fun _ m => m.reverse }

/-- The function `processResource` with its loops run in the given order, for the
container at position `i`. -/
def processResourceIn (o : RangeOrder) (i : Nat) (res : List (String × Value)) (rt : String)
    (s : Summary) (isInit : Bool) (initFn mainFn : QMap → QMap → QMap) : Summary :=
  let resources := asMap (mapGet rt res)
  let qtyMap := parseEntries (o.entries isInit i rt resources)
  if isInit then
    setTargetMap rt s true (initFn (getTargetMap rt s true) (o.quantities true i rt qtyMap))
  else
    setTargetMap rt s false (mainFn (getTargetMap rt s false) (o.quantities false i rt qtyMap))

/-- The loop body of `processContainers` with the map loops run in the given order. -/
def processContainerIn (o : RangeOrder) (i : Nat) (s : Summary) (isInit : Bool) (c : Value) :
    Summary :=
  match c with
  | .map container =>
    let res := asMap (mapGet "resources" container)
    let s1 := processResourceIn o i res "requests" s isInit updateMax sumValues
    processResourceIn o i res "limits" s1 isInit updateMax sumValues
  | _ => s

/-- The loop of `processContainers` over the containers from position `i` on. -/
def walkIn (o : RangeOrder) (isInit : Bool) : Nat → List Value → Summary → Summary
  | _, [], s => s
  | i, c :: rest, s => walkIn o isInit (i + 1) rest (processContainerIn o i s isInit c)

/-- The function `processContainers` with the map loops run in the given order. -/
def processContainersIn (o : RangeOrder) (podSpec : List (String × Value)) (field : String)
    (s : Summary) (isInit : Bool) : Except AggregateError Summary :=
  match NestedSlice podSpec field with
  | .error err => .error { field := field, cause := err }
  | .ok none => .ok s
  | .ok (some containers) => .ok (walkIn o isInit 0 containers s)

/-- The function `calculateEffective` with its two loops run in the given order. -/
def calculateEffectiveIn (o : RangeOrder) (s : Summary) : Summary :=
  let s1 := { s with
    EffectiveRequests :=
      effectiveOf (o.effective "requests" s.InitMaxRequests) s.TotalRequests s.EffectiveRequests }
  { s1 with
    EffectiveLimits :=
      effectiveOf (o.effective "limits" s1.InitMaxLimits) s1.TotalLimits s1.EffectiveLimits }

/-- One invocation of `Aggregate`, its map loops run in the given order. -/
def AggregateIn (o : RangeOrder) (podSpec : List (String × Value)) :
    Except AggregateError Summary :=
  match processContainersIn o podSpec "initContainers" NewSummary true with
  | .error err => .error err
  | .ok s1 =>
    match processContainersIn o podSpec "containers" s1 false with
    | .error err => .error err
    | .ok s2 => .ok (calculateEffectiveIn o s2)

/-- Two summaries with identical content: every resource name is bound to the
same quantity, or to none, by both, in each of the six maps. -/
def SameContent (s s' : Summary) : Prop :=
  ∀ r, mapGet r s.TotalRequests = mapGet r s'.TotalRequests ∧
    mapGet r s.TotalLimits = mapGet r s'.TotalLimits ∧
    mapGet r s.InitMaxRequests = mapGet r s'.InitMaxRequests ∧
    mapGet r s.InitMaxLimits = mapGet r s'.InitMaxLimits ∧
    mapGet r s.EffectiveRequests = mapGet r s'.EffectiveRequests ∧
    mapGet r s.EffectiveLimits = mapGet r s'.EffectiveLimits

/-! ## Association lists -/

theorem mapGet_mapSet_self {β : Type} (k : String) (v : β) (m : List (String × β)) :
    mapGet k (mapSet k v m) = some v := by
  induction m with
  | nil => simp [mapSet, mapGet]
  | cons p rest ih =>
    obtain ⟨k', v'⟩ := p
    by_cases h : k' = k
    · simp [mapSet, mapGet, h]
    · simp [mapSet, mapGet, h, ih]

theorem mapGet_mapSet_ne {β : Type} (k r : String) (v : β) (m : List (String × β))
    (hne : k ≠ r) : mapGet r (mapSet k v m) = mapGet r m := by
  induction m with
  | nil => simp [mapSet, mapGet, hne]
  | cons p rest ih =>
    obtain ⟨k', v'⟩ := p
    by_cases h : k' = k
    · subst h
      simp [mapSet, mapGet, hne]
    · by_cases h' : k' = r
      · subst h'
        simp [mapSet, mapGet, h]
      · simp [mapSet, mapGet, h, h', ih]

theorem mapGet_mapSet {β : Type} (k r : String) (v : β) (m : List (String × β)) :
    mapGet r (mapSet k v m) = if k = r then some v else mapGet r m := by
  by_cases h : k = r
  · subst h
    simp [mapGet_mapSet_self]
  · simp [h, mapGet_mapSet_ne k r v m h]

theorem mapKeys_mapSet_mem {β : Type} (k r : String) (v : β) (m : List (String × β)) :
    r ∈ mapKeys (mapSet k v m) ↔ r = k ∨ r ∈ mapKeys m := by
  induction m with
  | nil => simp [mapSet, mapKeys]
  | cons p rest ih =>
    obtain ⟨k', v'⟩ := p
    by_cases h : k' = k
    · subst h
      simp [mapSet, mapKeys]
    · simp only [mapKeys] at ih
      simp [mapSet, mapKeys, h, ih]
      tauto

theorem distinctKeys_mapSet {β : Type} (k : String) (v : β) (m : List (String × β))
    (hm : DistinctKeys m) : DistinctKeys (mapSet k v m) := by
  induction m with
  | nil => simp [mapSet, DistinctKeys, mapKeys]
  | cons p rest ih =>
    obtain ⟨k', v'⟩ := p
    have hcons : k' ∉ mapKeys rest ∧ DistinctKeys rest := by
      simpa [DistinctKeys, mapKeys] using hm
    by_cases h : k' = k
    · subst h
      simpa [mapSet, DistinctKeys, mapKeys] using hm
    · have hrest := ih hcons.2
      have hmem : k' ∉ mapKeys (mapSet k v rest) := by
        rw [mapKeys_mapSet_mem]
        rintro (h1 | h1)
        · exact h h1
        · exact hcons.1 h1
      simp only [mapSet, h, if_false]
      simp only [DistinctKeys, mapKeys, List.map_cons, List.nodup_cons]
      exact ⟨by simpa [mapKeys] using hmem, by simpa [DistinctKeys, mapKeys] using hrest⟩

theorem mapGet_eq_none_iff {β : Type} (r : String) (m : List (String × β)) :
    mapGet r m = none ↔ r ∉ mapKeys m := by
  induction m with
  | nil => simp [mapGet, mapKeys]
  | cons p rest ih =>
    obtain ⟨k', v'⟩ := p
    by_cases h : k' = r
    · simp [mapGet, mapKeys, h]
    · have hne : ¬ r = k' := fun h1 => h h1.symm
      simp only [mapGet, h, if_false, ih]
      simp [mapKeys, hne]

theorem mapGet_of_mem {β : Type} (r : String) (v : β) (m : List (String × β))
    (hm : DistinctKeys m) (hmem : (r, v) ∈ m) : mapGet r m = some v := by
  induction m with
  | nil => simp at hmem
  | cons p rest ih =>
    obtain ⟨k', v'⟩ := p
    have hcons : k' ∉ mapKeys rest ∧ DistinctKeys rest := by
      simpa [DistinctKeys, mapKeys] using hm
    rcases List.mem_cons.1 hmem with h | h
    · cases h
      simp [mapGet]
    · have hk : k' ≠ r := by
        rintro rfl
        exact hcons.1 (by simpa [mapKeys] using ⟨v, h⟩)
      simp [mapGet, hk, ih hcons.2 h]

theorem mem_of_mapGet {β : Type} (r : String) (v : β) (m : List (String × β))
    (h : mapGet r m = some v) : (r, v) ∈ m := by
  induction m with
  | nil => simp [mapGet] at h
  | cons p rest ih =>
    obtain ⟨k', v'⟩ := p
    by_cases hk : k' = r
    · subst hk
      simp [mapGet] at h
      simp [h]
    · simp [mapGet, hk] at h
      exact List.mem_cons_of_mem _ (ih h)

theorem filter_key_of_distinct {β : Type} (r : String) (m : List (String × β))
    (hm : DistinctKeys m) :
    m.filter (fun kv => decide (kv.1 = r)) =
      match mapGet r m with
      | some v => [(r, v)]
      | none => [] := by
  induction m with
  | nil => simp [mapGet]
  | cons p rest ih =>
    obtain ⟨k', v'⟩ := p
    have hcons : k' ∉ mapKeys rest ∧ DistinctKeys rest := by
      simpa [DistinctKeys, mapKeys] using hm
    by_cases h : k' = r
    · subst h
      have hnone : mapGet k' rest = none := (mapGet_eq_none_iff k' rest).2 hcons.1
      have hrest := ih hcons.2
      rw [hnone] at hrest
      simp [mapGet, List.filter_cons, hrest]
    · simp [mapGet, List.filter_cons, h, ih hcons.2]

/-- Reading one key out of a fold whose step only touches the key of the
element it visits. -/
theorem mapGet_foldl {X : Type} (key : X → String) (step : QMap → X → QMap)
    (g : Option Quantity → X → Option Quantity) (r : String)
    (hstep : ∀ d x, mapGet r (step d x) = if key x = r then g (mapGet r d) x else mapGet r d)
    (xs : List X) (d : QMap) :
    mapGet r (xs.foldl step d) =
      (xs.filter (fun x => decide (key x = r))).foldl g (mapGet r d) := by
  induction xs generalizing d with
  | nil => simp
  | cons x rest ih =>
    by_cases h : key x = r
    · simp [List.filter_cons, h, ih, hstep]
    · simp [List.filter_cons, h, ih, hstep]

theorem distinctKeys_foldl {X : Type} (step : QMap → X → QMap)
    (hstep : ∀ d x, DistinctKeys d → DistinctKeys (step d x))
    (xs : List X) (d : QMap) (hd : DistinctKeys d) : DistinctKeys (xs.foldl step d) := by
  induction xs generalizing d with
  | nil => simpa using hd
  | cons x rest ih => exact ih _ (hstep d x hd)

/-! ## The loops, one resource name at a time -/

theorem cmp_pos_iff (a b : Quantity) : a.Cmp b > 0 ↔ b.nanos < a.nanos := by
  unfold Quantity.Cmp
  by_cases h1 : a.nanos < b.nanos
  · simp [h1]
    omega
  · by_cases h2 : a.nanos = b.nanos
    · simp [h2]
    · simp [h1, h2]
      omega

theorem mapGet_updateMaxStep (r : String) (d : QMap) (kv : String × Quantity) :
    mapGet r (updateMaxStep d kv) =
      if kv.1 = r then some (keepMax (mapGet r d) kv.2) else mapGet r d := by
  obtain ⟨k, v⟩ := kv
  by_cases h : k = r
  · subst h
    cases hd : mapGet k d with
    | none => simp [updateMaxStep, keepMax, hd, mapGet_mapSet_self]
    | some c =>
      by_cases hc : v.Cmp c > 0
      · simp [updateMaxStep, keepMax, hd, hc, mapGet_mapSet_self]
      · simp [updateMaxStep, keepMax, hd, hc]
  · cases hd : mapGet k d with
    | none => simp [updateMaxStep, hd, h, mapGet_mapSet_ne k r v d h]
    | some c =>
      by_cases hc : v.Cmp c > 0
      · simp [updateMaxStep, hd, hc, h, mapGet_mapSet_ne k r v d h]
      · simp [updateMaxStep, hd, hc, h]

theorem mapGet_sumValuesStep (r : String) (d : QMap) (kv : String × Quantity) :
    mapGet r (sumValuesStep d kv) =
      if kv.1 = r then some (addTo (mapGet r d) kv.2) else mapGet r d := by
  obtain ⟨k, v⟩ := kv
  by_cases h : k = r
  · subst h
    cases hd : mapGet k d with
    | none => simp [sumValuesStep, addTo, hd, mapGet_mapSet_self]
    | some c => simp [sumValuesStep, addTo, hd, mapGet_mapSet_self]
  · cases hd : mapGet k d with
    | none => simp [sumValuesStep, hd, h, mapGet_mapSet_ne k r v d h]
    | some c => simp [sumValuesStep, hd, h, mapGet_mapSet_ne k r _ d h]

theorem mapGet_parseEntry (r : String) (m : QMap) (kv : String × Value) :
    mapGet r (parseEntry m kv) =
      if kv.1 = r then (quantityOf kv.2).orElse (fun _ => mapGet r m) else mapGet r m := by
  obtain ⟨k, v⟩ := kv
  by_cases h : k = r
  · subst h
    cases hq : ParseQuantity (sprintV v) with
    | none => simp [parseEntry, quantityOf, hq]
    | some q => simp [parseEntry, quantityOf, hq, mapGet_mapSet_self]
  · cases hq : ParseQuantity (sprintV v) with
    | none => simp [parseEntry, hq, h]
    | some q => simp [parseEntry, hq, h, mapGet_mapSet_ne k r q m h]

theorem mapGet_effectiveStep (total : QMap) (r : String) (eff : QMap) (kv : String × Quantity) :
    mapGet r (effectiveStep total eff kv) =
      if kv.1 = r then some (effectiveValue (mapGet r total) kv.2) else mapGet r eff := by
  obtain ⟨k, v⟩ := kv
  by_cases h : k = r
  · subst h
    cases ht : mapGet k total with
    | none => simp [effectiveStep, effectiveValue, ht, mapGet_mapSet_self]
    | some t =>
      by_cases hc : t.Cmp v > 0
      · have hlt : v.nanos < t.nanos := (cmp_pos_iff t v).1 hc
        simp [effectiveStep, effectiveValue, ht, hc, hlt, mapGet_mapSet_self]
      · have hlt : ¬ v.nanos < t.nanos := fun h1 => hc ((cmp_pos_iff t v).2 h1)
        simp [effectiveStep, effectiveValue, ht, hc, hlt, mapGet_mapSet_self]
  · cases ht : mapGet k total with
    | none => simp [effectiveStep, ht, h, mapGet_mapSet_ne k r v eff h]
    | some t =>
      by_cases hc : t.Cmp v > 0
      · simp [effectiveStep, ht, hc, h, mapGet_mapSet_ne k r t eff h]
      · simp [effectiveStep, ht, hc, h, mapGet_mapSet_ne k r v eff h]

theorem distinctKeys_updateMax (d src : QMap) (hd : DistinctKeys d) :
    DistinctKeys (updateMax d src) := by
  refine distinctKeys_foldl updateMaxStep ?_ src d hd
  intro d x hx
  unfold updateMaxStep
  cases mapGet x.1 d with
  | none => exact distinctKeys_mapSet _ _ _ hx
  | some c =>
    by_cases hc : x.2.Cmp c > 0
    · simpa [hc] using distinctKeys_mapSet _ _ _ hx
    · simpa [hc] using hx

theorem distinctKeys_sumValues (d src : QMap) (hd : DistinctKeys d) :
    DistinctKeys (sumValues d src) := by
  refine distinctKeys_foldl sumValuesStep ?_ src d hd
  intro d x hx
  unfold sumValuesStep
  cases mapGet x.1 d with
  | none => exact distinctKeys_mapSet _ _ _ hx
  | some c => exact distinctKeys_mapSet _ _ _ hx

theorem distinctKeys_parseEntries (resources : List (String × Value)) :
    DistinctKeys (parseEntries resources) := by
  refine distinctKeys_foldl parseEntry ?_ resources [] (by simp [DistinctKeys, mapKeys])
  intro d x hx
  unfold parseEntry
  cases ParseQuantity (sprintV x.2) with
  | none => exact hx
  | some q => exact distinctKeys_mapSet _ _ _ hx

theorem distinctKeys_foldMax (rt : String) (cs : List Value) (m : QMap) (hm : DistinctKeys m) :
    DistinctKeys (foldMax rt cs m) :=
  distinctKeys_foldl _ (fun d c hd => distinctKeys_updateMax d (quantitiesOf c rt) hd) cs m hm

theorem distinctKeys_foldSum (rt : String) (cs : List Value) (m : QMap) (hm : DistinctKeys m) :
    DistinctKeys (foldSum rt cs m) :=
  distinctKeys_foldl _ (fun d c hd => distinctKeys_sumValues d (quantitiesOf c rt) hd) cs m hm

/-- What `updateMax` leaves under one resource name, for a source map with
distinct keys. -/
theorem mapGet_updateMax (r : String) (d src : QMap) (hsrc : DistinctKeys src) :
    mapGet r (updateMax d src) =
      match mapGet r src with
      | some v => some (keepMax (mapGet r d) v)
      | none => mapGet r d := by
  unfold updateMax
  rw [mapGet_foldl Prod.fst updateMaxStep (fun acc kv => some (keepMax acc kv.2)) r
    (fun d x => mapGet_updateMaxStep r d x), filter_key_of_distinct r src hsrc]
  cases mapGet r src <;> simp

/-- What `sumValues` leaves under one resource name, for a source map with
distinct keys. -/
theorem mapGet_sumValues (r : String) (d src : QMap) (hsrc : DistinctKeys src) :
    mapGet r (sumValues d src) =
      match mapGet r src with
      | some v => some (addTo (mapGet r d) v)
      | none => mapGet r d := by
  unfold sumValues
  rw [mapGet_foldl Prod.fst sumValuesStep (fun acc kv => some (addTo acc kv.2)) r
    (fun d x => mapGet_sumValuesStep r d x), filter_key_of_distinct r src hsrc]
  cases mapGet r src <;> simp

/-- The parsing loop keeps, for a map with distinct keys, exactly the entries
whose value parses. -/
theorem mapGet_parseEntries (r : String) (resources : List (String × Value))
    (hres : DistinctKeys resources) :
    mapGet r (parseEntries resources) = (mapGet r resources).bind quantityOf := by
  unfold parseEntries
  rw [mapGet_foldl Prod.fst parseEntry
    (fun acc kv => (quantityOf kv.2).orElse (fun _ => acc)) r
    (fun d x => mapGet_parseEntry r d x), filter_key_of_distinct r resources hres]
  cases hg : mapGet r resources with
  | none => simp [mapGet]
  | some v => cases hq : quantityOf v <;> simp [mapGet, hq]

theorem mapGet_quantitiesOf (c : Value) (rt r : String) (hc : DistinctKeys (entriesOf c rt)) :
    mapGet r (quantitiesOf c rt) = entryOf c rt r :=
  mapGet_parseEntries r (entriesOf c rt) hc

/-- A resource name is kept by the parsing loop exactly when one of its entries
parses, whether or not the keys are distinct. -/
theorem mapGet_parseEntries_isSome (r : String) (resources : List (String × Value)) :
    (mapGet r (parseEntries resources)).isSome ↔
      ∃ v, (r, v) ∈ resources ∧ (quantityOf v).isSome := by
  unfold parseEntries
  rw [mapGet_foldl Prod.fst parseEntry
    (fun acc kv => (quantityOf kv.2).orElse (fun _ => acc)) r
    (fun d x => mapGet_parseEntry r d x)]
  have key : ∀ (xs : List (String × Value)) (acc : Option Quantity),
      (xs.foldl (fun acc kv => (quantityOf kv.2).orElse (fun _ => acc)) acc).isSome ↔
        acc.isSome ∨ ∃ kv ∈ xs, (quantityOf kv.2).isSome := by
    intro xs
    induction xs with
    | nil => simp
    | cons x rest ih =>
      intro acc
      rw [List.foldl_cons, ih]
      cases hq : quantityOf x.2 <;> simp [hq]
  rw [key]
  constructor
  · rintro (h | ⟨⟨k, v⟩, hmem, hq⟩)
    · simp [mapGet] at h
    · rw [List.mem_filter] at hmem
      obtain ⟨hmem, hk⟩ := hmem
      have hk' : k = r := by simpa using hk
      subst hk'
      exact ⟨v, hmem, hq⟩
  · rintro ⟨v, hmem, hq⟩
    exact Or.inr ⟨(r, v), List.mem_filter.2 ⟨hmem, by simp⟩, hq⟩

/-! ## The traversal in closed form -/

theorem updateMax_nil (d : QMap) : updateMax d [] = d := rfl

theorem sumValues_nil (d : QMap) : sumValues d [] = d := rfl

/-- An init container only writes the two init-max maps. -/
theorem processContainer_init (s : Summary) (c : Value) :
    processContainer s true c =
      { s with
        InitMaxRequests := updateMax s.InitMaxRequests (quantitiesOf c "requests")
        InitMaxLimits := updateMax s.InitMaxLimits (quantitiesOf c "limits") } := by
  cases c <;>
    simp [processContainer, processResource, getTargetMap, setTargetMap, quantitiesOf,
      entriesOf, parseEntries, updateMax]

/-- A main container only writes the two total maps. -/
theorem processContainer_main (s : Summary) (c : Value) :
    processContainer s false c =
      { s with
        TotalRequests := sumValues s.TotalRequests (quantitiesOf c "requests")
        TotalLimits := sumValues s.TotalLimits (quantitiesOf c "limits") } := by
  cases c <;>
    simp [processContainer, processResource, getTargetMap, setTargetMap, quantitiesOf,
      entriesOf, parseEntries, sumValues]

theorem foldl_processContainer_init (cs : List Value) (s : Summary) :
    cs.foldl (fun s c => processContainer s true c) s =
      { s with
        InitMaxRequests := foldMax "requests" cs s.InitMaxRequests
        InitMaxLimits := foldMax "limits" cs s.InitMaxLimits } := by
  induction cs generalizing s with
  | nil => simp [foldMax]
  | cons c rest ih =>
    rw [List.foldl_cons, ih, processContainer_init]
    simp [foldMax]

theorem foldl_processContainer_main (cs : List Value) (s : Summary) :
    cs.foldl (fun s c => processContainer s false c) s =
      { s with
        TotalRequests := foldSum "requests" cs s.TotalRequests
        TotalLimits := foldSum "limits" cs s.TotalLimits } := by
  induction cs generalizing s with
  | nil => simp [foldSum]
  | cons c rest ih =>
    rw [List.foldl_cons, ih, processContainer_main]
    simp [foldSum]

theorem processContainers_eq (podSpec : List (String × Value)) (field : String) (s : Summary)
    (isInit : Bool) :
    processContainers podSpec field s isInit =
      if notSequence podSpec field then
        .error { field := field, cause := { field := field } }
      else
        .ok ((containersOf podSpec field).foldl (fun s c => processContainer s isInit c) s) := by
  unfold processContainers NestedSlice notSequence containersOf
  cases mapGet field podSpec with
  | none => simp
  | some v => cases v <;> simp

/-- The aggregation in closed form: an error for the first list field that is
not a sequence, else the effective values derived from the collected maps. -/
theorem Aggregate_eq (podSpec : List (String × Value)) :
    Aggregate podSpec =
      if notSequence podSpec "initContainers" then
        .error { field := "initContainers", cause := { field := "initContainers" } }
      else if notSequence podSpec "containers" then
        .error { field := "containers", cause := { field := "containers" } }
      else
        .ok (calculateEffective
          (collect (containersOf podSpec "initContainers") (containersOf podSpec "containers"))) := by
  unfold Aggregate
  simp only [processContainers_eq]
  by_cases h1 : notSequence podSpec "initContainers" = true
  · simp [h1]
  · by_cases h2 : notSequence podSpec "containers" = true
    · simp [h1, h2]
    · simp [h1, h2, foldl_processContainer_init, foldl_processContainer_main, NewSummary,
        collect]

theorem Aggregate_ok_iff (podSpec : List (String × Value)) (s : Summary) :
    Aggregate podSpec = .ok s ↔
      notSequence podSpec "initContainers" = false ∧ notSequence podSpec "containers" = false ∧
        s = calculateEffective
          (collect (containersOf podSpec "initContainers") (containersOf podSpec "containers")) := by
  rw [Aggregate_eq]
  by_cases h1 : notSequence podSpec "initContainers" = true
  · simp [h1]
  · by_cases h2 : notSequence podSpec "containers" = true
    · simp [h1, h2]
    · simp only [h1, h2]
      simp only [Bool.not_eq_true] at h1 h2
      simp [h1, h2, eq_comm]

/-! ## The effective values -/

theorem mapGet_effectiveOf (r : String) (initMax total eff : QMap) (hinit : DistinctKeys initMax) :
    mapGet r (effectiveOf initMax total eff) =
      match mapGet r initMax with
      | some q => some (effectiveValue (mapGet r total) q)
      | none => mapGet r eff := by
  unfold effectiveOf
  rw [mapGet_foldl Prod.fst (effectiveStep total)
    (fun _ kv => some (effectiveValue (mapGet r total) kv.2)) r
    (fun d x => mapGet_effectiveStep total r d x), filter_key_of_distinct r initMax hinit]
  cases mapGet r initMax <;> simp

theorem effectiveValue_nanos (total : Option Quantity) (q : Quantity) :
    (effectiveValue total q).nanos =
      match total with
      | some t => max t.nanos q.nanos
      | none => q.nanos := by
  cases total with
  | none => rfl
  | some t =>
    by_cases h : q.nanos < t.nanos
    · simp [effectiveValue, h, max_eq_left (le_of_lt h)]
    · simp [effectiveValue, h, max_eq_right (not_lt.1 h)]

theorem distinctKeys_nil : DistinctKeys ([] : QMap) := by
  simp [DistinctKeys, mapKeys]

theorem calculateEffective_collect_requests (inits mains : List Value) (r : String) :
    mapGet r (calculateEffective (collect inits mains)).EffectiveRequests =
      match mapGet r (foldMax "requests" inits []) with
      | some q => some (effectiveValue (mapGet r (foldSum "requests" mains [])) q)
      | none => none := by
  simp only [calculateEffective, collect]
  rw [mapGet_effectiveOf r _ _ _ (distinctKeys_foldMax "requests" inits [] distinctKeys_nil)]
  cases mapGet r (foldMax "requests" inits []) <;> simp [mapGet]

theorem calculateEffective_collect_limits (inits mains : List Value) (r : String) :
    mapGet r (calculateEffective (collect inits mains)).EffectiveLimits =
      match mapGet r (foldMax "limits" inits []) with
      | some q => some (effectiveValue (mapGet r (foldSum "limits" mains [])) q)
      | none => none := by
  simp only [calculateEffective, collect]
  rw [mapGet_effectiveOf r _ _ _ (distinctKeys_foldMax "limits" inits [] distinctKeys_nil)]
  cases mapGet r (foldMax "limits" inits []) <;> simp [mapGet]

/-- C1: for a pod spec on which `Aggregate` succeeds and a resource name bound in
`InitMaxRequests`, `EffectiveRequests` binds it to the total when the total
exists and is strictly greater in magnitude than the init maximum, and to the
init maximum otherwise, so that its magnitude is the larger of the two (the
total counted only when present); likewise for the limits. -/
theorem effective_is_larger_of_total_and_initMax (podSpec : List (String × Value))
    (s : Summary) (h : Aggregate podSpec = .ok s) (r : String) :
    (∀ q, mapGet r s.InitMaxRequests = some q →
      mapGet r s.EffectiveRequests = some (effectiveValue (mapGet r s.TotalRequests) q) ∧
      (effectiveValue (mapGet r s.TotalRequests) q).nanos =
        match mapGet r s.TotalRequests with
        | some t => max t.nanos q.nanos
        | none => q.nanos) ∧
    (∀ q, mapGet r s.InitMaxLimits = some q →
      mapGet r s.EffectiveLimits = some (effectiveValue (mapGet r s.TotalLimits) q) ∧
      (effectiveValue (mapGet r s.TotalLimits) q).nanos =
        match mapGet r s.TotalLimits with
        | some t => max t.nanos q.nanos
        | none => q.nanos) := by
  obtain ⟨-, -, hs⟩ := (Aggregate_ok_iff podSpec s).1 h
  subst hs
  constructor
  · intro q hq
    refine ⟨?_, effectiveValue_nanos _ q⟩
    rw [calculateEffective_collect_requests]
    have hq' : mapGet r (foldMax "requests" (containersOf podSpec "initContainers") []) = some q := hq
    rw [hq']
    rfl
  · intro q hq
    refine ⟨?_, effectiveValue_nanos _ q⟩
    rw [calculateEffective_collect_limits]
    have hq' : mapGet r (foldMax "limits" (containersOf podSpec "initContainers") []) = some q := hq
    rw [hq']
    rfl

/-- C1 at `podMixed`: memory is at 300Mi in total and at 512Mi among the init
containers, so the effective request is the 512Mi; cpu limits are at 2 in total
and at 1 among the init containers, so the effective limit is the total. -/
theorem effective_is_larger_of_total_and_initMax_witness :
    Aggregate podMixed = .ok summaryMixed ∧
      mapGet "memory" summaryMixed.EffectiveRequests =
        some (effectiveValue (mapGet "memory" summaryMixed.TotalRequests)
          ⟨536870912000000000, .BinarySI⟩) ∧
      mapGet "cpu" summaryMixed.EffectiveLimits =
        some (effectiveValue (mapGet "cpu" summaryMixed.TotalLimits)
          ⟨1000000000, .DecimalSI⟩) :=
  ⟨rfl,
    ((effective_is_larger_of_total_and_initMax podMixed summaryMixed rfl "memory").1
      ⟨536870912000000000, .BinarySI⟩ (by decide)).1,
    ((effective_is_larger_of_total_and_initMax podMixed summaryMixed rfl "cpu").2
      ⟨1000000000, .DecimalSI⟩ (by decide)).1⟩

/-! ## Totals and init maxima, one resource name at a time -/

theorem mapGet_foldSum (rt r : String) (cs : List Value) (m : QMap) :
    mapGet r (foldSum rt cs m) =
      cs.foldl (fun acc c =>
        match mapGet r (quantitiesOf c rt) with
        | some v => some (addTo acc v)
        | none => acc) (mapGet r m) := by
  induction cs generalizing m with
  | nil => rfl
  | cons c rest ih =>
    have hstep := mapGet_sumValues r m (quantitiesOf c rt) (distinctKeys_parseEntries _)
    simp only [foldSum, List.foldl_cons] at ih ⊢
    rw [ih, hstep]

theorem mapGet_foldMax (rt r : String) (cs : List Value) (m : QMap) :
    mapGet r (foldMax rt cs m) =
      cs.foldl (fun acc c =>
        match mapGet r (quantitiesOf c rt) with
        | some v => some (keepMax acc v)
        | none => acc) (mapGet r m) := by
  induction cs generalizing m with
  | nil => rfl
  | cons c rest ih =>
    have hstep := mapGet_updateMax r m (quantitiesOf c rt) (distinctKeys_parseEntries _)
    simp only [foldMax, List.foldl_cons] at ih ⊢
    rw [ih, hstep]

/-- A fold over containers that combines the contributions that exist is the
fold of the combination over the list of contributions. -/
theorem foldl_contributions (f : Option Quantity → Quantity → Quantity)
    (contrib : Value → Option Quantity) (cs : List Value) (acc : Option Quantity) :
    cs.foldl (fun acc c =>
        match contrib c with
        | some v => some (f acc v)
        | none => acc) acc =
      (cs.filterMap contrib).foldl (fun acc v => some (f acc v)) acc := by
  induction cs generalizing acc with
  | nil => rfl
  | cons c rest ih =>
    cases hc : contrib c with
    | none => simp [List.filterMap_cons, hc, ih]
    | some v => simp [List.filterMap_cons, hc, ih]

theorem foldl_some_isSome (f : Option Quantity → Quantity → Quantity) (vs : List Quantity)
    (acc : Option Quantity) :
    (vs.foldl (fun acc v => some (f acc v)) acc).isSome ↔ acc.isSome ∨ vs ≠ [] := by
  induction vs generalizing acc with
  | nil => simp
  | cons v rest ih => simp [ih]

/-- The running sum over a list of quantities is exact. -/
theorem foldl_addTo_nanos (vs : List Quantity) (acc : Option Quantity) (q : Quantity)
    (h : vs.foldl (fun acc v => some (addTo acc v)) acc = some q) :
    q.nanos = (acc.map Quantity.nanos).getD 0 + (vs.map Quantity.nanos).sum := by
  induction vs generalizing acc with
  | nil =>
    simp only [List.foldl_nil] at h
    simp [h]
  | cons v rest ih =>
    rw [List.foldl_cons] at h
    rw [ih _ h]
    cases acc with
    | none => simp [addTo]
    | some a => simp [addTo, Quantity.Add, add_assoc]

theorem keepMax_cases (acc : Option Quantity) (v : Quantity) :
    (keepMax acc v = v ∨ acc = some (keepMax acc v)) ∧ v.nanos ≤ (keepMax acc v).nanos ∧
      ∀ a, acc = some a → a.nanos ≤ (keepMax acc v).nanos := by
  cases acc with
  | none => simp [keepMax]
  | some a =>
    by_cases hc : v.Cmp a > 0
    · have hlt := (cmp_pos_iff v a).1 hc
      simp [keepMax, hc]
      omega
    · have hle : ¬ a.nanos < v.nanos := fun h1 => hc ((cmp_pos_iff v a).2 h1)
      simp [keepMax, hc]
      omega

/-- The running maximum over a list of quantities is one of them (or the
initial one) and bounds them all. -/
theorem foldl_keepMax_spec (vs : List Quantity) (acc : Option Quantity) (q : Quantity)
    (h : vs.foldl (fun acc v => some (keepMax acc v)) acc = some q) :
    (acc = some q ∨ q ∈ vs) ∧ (∀ v ∈ vs, v.nanos ≤ q.nanos) ∧
      ∀ a, acc = some a → a.nanos ≤ q.nanos := by
  induction vs generalizing acc with
  | nil =>
    simp only [List.foldl_nil] at h
    subst h
    simp
  | cons v rest ih =>
    rw [List.foldl_cons] at h
    obtain ⟨h1, h2, h3⟩ := ih _ h
    obtain ⟨k1, k2, k3⟩ := keepMax_cases acc v
    have hv : (keepMax acc v).nanos ≤ q.nanos := h3 _ rfl
    refine ⟨?_, ?_, ?_⟩
    · rcases h1 with h1 | h1
      · have hq : keepMax acc v = q := by simpa using h1
        rcases k1 with k1 | k1
        · right
          rw [← hq, k1]
          exact List.mem_cons_self _ _
        · left
          rw [k1, hq]
      · right
        exact List.mem_cons_of_mem _ h1
    · intro w hw
      rcases List.mem_cons.1 hw with hw | hw
      · subst hw
        omega
      · exact h2 w hw
    · intro a ha
      have := k3 a ha
      omega

theorem quantitiesOf_congr (rt r : String) (cs : List Value)
    (hkeys : ∀ c ∈ cs, DistinctKeys (entriesOf c rt))
    (f : Option Quantity → Quantity → Quantity) (acc : Option Quantity) :
    cs.foldl (fun acc c =>
        match mapGet r (quantitiesOf c rt) with
        | some v => some (f acc v)
        | none => acc) acc =
      (cs.filterMap (fun c => entryOf c rt r)).foldl (fun acc v => some (f acc v)) acc := by
  rw [← foldl_contributions f (fun c => entryOf c rt r) cs acc]
  induction cs generalizing acc with
  | nil => rfl
  | cons c rest ih =>
    have hc := mapGet_quantitiesOf c rt r (hkeys c (List.mem_cons_self _ _))
    simp only [List.foldl_cons, hc]
    exact ih (fun c' hc' => hkeys c' (List.mem_cons_of_mem _ hc')) _

theorem filterMap_ne_nil_iff (contrib : Value → Option Quantity) (cs : List Value) :
    cs.filterMap contrib ≠ [] ↔ ∃ c ∈ cs, (contrib c).isSome := by
  induction cs with
  | nil => simp
  | cons c rest ih =>
    cases hc : contrib c with
    | none => simp [List.filterMap_cons, hc, ih]
    | some v => simp [List.filterMap_cons, hc]

theorem foldSum_spec (rt r : String) (cs : List Value)
    (hkeys : ∀ c ∈ cs, DistinctKeys (entriesOf c rt)) :
    ((mapGet r (foldSum rt cs [])).isSome ↔ ∃ c ∈ cs, (entryOf c rt r).isSome) ∧
      ∀ q, mapGet r (foldSum rt cs []) = some q →
        q.nanos = ((cs.filterMap (fun c => entryOf c rt r)).map Quantity.nanos).sum := by
  have hget : mapGet r (foldSum rt cs []) =
      (cs.filterMap (fun c => entryOf c rt r)).foldl (fun acc v => some (addTo acc v)) none := by
    rw [mapGet_foldSum, quantitiesOf_congr rt r cs hkeys addTo]
    rfl
  constructor
  · rw [hget, foldl_some_isSome, filterMap_ne_nil_iff]
    simp
  · intro q hq
    rw [hget] at hq
    simpa using foldl_addTo_nanos _ none q hq

theorem foldMax_spec (rt r : String) (cs : List Value)
    (hkeys : ∀ c ∈ cs, DistinctKeys (entriesOf c rt)) :
    ((mapGet r (foldMax rt cs [])).isSome ↔ ∃ c ∈ cs, (entryOf c rt r).isSome) ∧
      ∀ q, mapGet r (foldMax rt cs []) = some q →
        (∃ c ∈ cs, entryOf c rt r = some q) ∧
          ∀ c ∈ cs, ∀ v, entryOf c rt r = some v → v.nanos ≤ q.nanos := by
  have hget : mapGet r (foldMax rt cs []) =
      (cs.filterMap (fun c => entryOf c rt r)).foldl (fun acc v => some (keepMax acc v)) none := by
    rw [mapGet_foldMax, quantitiesOf_congr rt r cs hkeys keepMax]
    rfl
  constructor
  · rw [hget, foldl_some_isSome, filterMap_ne_nil_iff]
    simp
  · intro q hq
    rw [hget] at hq
    obtain ⟨h1, h2, -⟩ := foldl_keepMax_spec _ none q hq
    constructor
    · rcases h1 with h1 | h1
      · cases h1
      · obtain ⟨c, hc, hcq⟩ := List.mem_filterMap.1 h1
        exact ⟨c, hc, hcq⟩
    · intro c hc v hv
      exact h2 v (List.mem_filterMap.2 ⟨c, hc, hv⟩)

/-- C2: for a pod spec on which `Aggregate` succeeds (its maps having distinct
keys, as Go maps do) and a resource name, `TotalRequests` binds the name exactly
when a main container has a parseable requests entry for it, and then to a
quantity whose magnitude is the exact sum of those entries over the main
containers; likewise `TotalLimits` for the limits entries. -/
theorem total_is_exact_sum_of_main_entries (podSpec : List (String × Value)) (s : Summary)
    (h : Aggregate podSpec = .ok s)
    (hkeys : ∀ c ∈ containersOf podSpec "containers",
      DistinctKeys (entriesOf c "requests") ∧ DistinctKeys (entriesOf c "limits"))
    (r : String) :
    (((mapGet r s.TotalRequests).isSome ↔
        ∃ c ∈ containersOf podSpec "containers", (entryOf c "requests" r).isSome) ∧
      ∀ q, mapGet r s.TotalRequests = some q →
        q.nanos = (((containersOf podSpec "containers").filterMap
          (fun c => entryOf c "requests" r)).map Quantity.nanos).sum) ∧
    (((mapGet r s.TotalLimits).isSome ↔
        ∃ c ∈ containersOf podSpec "containers", (entryOf c "limits" r).isSome) ∧
      ∀ q, mapGet r s.TotalLimits = some q →
        q.nanos = (((containersOf podSpec "containers").filterMap
          (fun c => entryOf c "limits" r)).map Quantity.nanos).sum) := by
  obtain ⟨-, -, hs⟩ := (Aggregate_ok_iff podSpec s).1 h
  subst hs
  exact ⟨foldSum_spec "requests" r _ (fun c hc => (hkeys c hc).1),
    foldSum_spec "limits" r _ (fun c hc => (hkeys c hc).2)⟩

/-- C2 at `podMixed`: main containers asking for 100m, 250m and 150m of cpu
give a total of 500m. -/
theorem total_is_exact_sum_of_main_entries_witness :
    Aggregate podMixed = .ok summaryMixed ∧
      (∀ c ∈ containersOf podMixed "containers",
        DistinctKeys (entriesOf c "requests") ∧ DistinctKeys (entriesOf c "limits")) ∧
      (containersOf podMixed "containers").filterMap (fun c => entryOf c "requests" "cpu") =
        [⟨100000000, .DecimalSI⟩, ⟨250000000, .DecimalSI⟩, ⟨150000000, .DecimalSI⟩] ∧
      ∀ q, mapGet "cpu" summaryMixed.TotalRequests = some q →
        q.nanos = (((containersOf podMixed "containers").filterMap
          (fun c => entryOf c "requests" "cpu")).map Quantity.nanos).sum :=
  ⟨rfl, by decide, by decide,
    (total_is_exact_sum_of_main_entries podMixed summaryMixed rfl (by decide) "cpu").1.2⟩

/-- C3: for a pod spec on which `Aggregate` succeeds (its maps having distinct
keys, as Go maps do) and a resource name, `InitMaxRequests` binds the name
exactly when an init container has a parseable requests entry for it, and then
to one of those entries, of the largest magnitude among them, not to their sum;
likewise `InitMaxLimits` for the limits entries. -/
theorem initMax_is_largest_init_entry (podSpec : List (String × Value)) (s : Summary)
    (h : Aggregate podSpec = .ok s)
    (hkeys : ∀ c ∈ containersOf podSpec "initContainers",
      DistinctKeys (entriesOf c "requests") ∧ DistinctKeys (entriesOf c "limits"))
    (r : String) :
    (((mapGet r s.InitMaxRequests).isSome ↔
        ∃ c ∈ containersOf podSpec "initContainers", (entryOf c "requests" r).isSome) ∧
      ∀ q, mapGet r s.InitMaxRequests = some q →
        (∃ c ∈ containersOf podSpec "initContainers", entryOf c "requests" r = some q) ∧
          ∀ c ∈ containersOf podSpec "initContainers", ∀ v,
            entryOf c "requests" r = some v → v.nanos ≤ q.nanos) ∧
    (((mapGet r s.InitMaxLimits).isSome ↔
        ∃ c ∈ containersOf podSpec "initContainers", (entryOf c "limits" r).isSome) ∧
      ∀ q, mapGet r s.InitMaxLimits = some q →
        (∃ c ∈ containersOf podSpec "initContainers", entryOf c "limits" r = some q) ∧
          ∀ c ∈ containersOf podSpec "initContainers", ∀ v,
            entryOf c "limits" r = some v → v.nanos ≤ q.nanos) := by
  obtain ⟨-, -, hs⟩ := (Aggregate_ok_iff podSpec s).1 h
  subst hs
  exact ⟨foldMax_spec "requests" r _ (fun c hc => (hkeys c hc).1),
    foldMax_spec "limits" r _ (fun c hc => (hkeys c hc).2)⟩

/-- C3 at `podMixed`: init containers asking for 200m and 900m of cpu give an
init maximum of 900m, not the 1100m of their sum. -/
theorem initMax_is_largest_init_entry_witness :
    Aggregate podMixed = .ok summaryMixed ∧
      (∀ c ∈ containersOf podMixed "initContainers",
        DistinctKeys (entriesOf c "requests") ∧ DistinctKeys (entriesOf c "limits")) ∧
      (containersOf podMixed "initContainers").filterMap (fun c => entryOf c "requests" "cpu") =
        [⟨200000000, .DecimalSI⟩, ⟨900000000, .DecimalSI⟩] ∧
      mapGet "cpu" summaryMixed.InitMaxRequests = some ⟨900000000, .DecimalSI⟩ ∧
      ∀ c ∈ containersOf podMixed "initContainers", ∀ v,
        entryOf c "requests" "cpu" = some v → v.nanos ≤ 900000000 :=
  ⟨rfl, by decide, by decide, by decide,
    ((initMax_is_largest_init_entry podMixed summaryMixed rfl (by decide) "cpu").1.2
      ⟨900000000, .DecimalSI⟩ (by decide)).2⟩

/-! ## Keys of the effective maps -/

theorem mem_mapKeys_iff {β : Type} (r : String) (m : List (String × β)) :
    r ∈ mapKeys m ↔ (mapGet r m).isSome := by
  have h := mapGet_eq_none_iff r m
  cases hg : mapGet r m with
  | none =>
    rw [hg] at h
    simpa using h.1 rfl
  | some v =>
    rw [hg] at h
    simp only [Option.isSome_some, iff_true]
    by_contra hc
    exact absurd (h.2 hc) (by simp)

theorem eq_nil_of_mapGet_none {β : Type} (m : List (String × β))
    (h : ∀ r, mapGet r m = none) : m = [] := by
  cases m with
  | nil => rfl
  | cons p rest =>
    have := h p.1
    simp [mapGet] at this

/-- C4, as the code behaves: on `podMainOnly`, whose only container is a main
container asking for 100m of cpu, `Aggregate` succeeds and binds cpu in
`TotalRequests`, but leaves `EffectiveRequests` without a cpu entry. -/
theorem mainOnly_resource_missing_from_effective :
    ∃ s, Aggregate podMainOnly = .ok s ∧
      mapGet "cpu" s.TotalRequests = some ⟨100000000, .DecimalSI⟩ ∧
      mapGet "cpu" s.EffectiveRequests = none ∧ s.EffectiveRequests = [] :=
  ⟨_, rfl, by decide, by decide, by decide⟩

/-- C5: in every summary that `Aggregate` returns, each key of `InitMaxRequests`
is a key of `EffectiveRequests`, and each key of `InitMaxLimits` is a key of
`EffectiveLimits`. -/
theorem initMax_keys_are_effective_keys (podSpec : List (String × Value)) (s : Summary)
    (h : Aggregate podSpec = .ok s) (r : String) :
    (r ∈ mapKeys s.InitMaxRequests → r ∈ mapKeys s.EffectiveRequests) ∧
      (r ∈ mapKeys s.InitMaxLimits → r ∈ mapKeys s.EffectiveLimits) := by
  obtain ⟨-, -, hs⟩ := (Aggregate_ok_iff podSpec s).1 h
  subst hs
  constructor
  · intro hr
    rw [mem_mapKeys_iff] at hr ⊢
    rw [calculateEffective_collect_requests]
    have hr' : (mapGet r (foldMax "requests" (containersOf podSpec "initContainers") [])).isSome :=
      hr
    cases hg : mapGet r (foldMax "requests" (containersOf podSpec "initContainers") []) with
    | none => simp [hg] at hr'
    | some q => simp
  · intro hr
    rw [mem_mapKeys_iff] at hr ⊢
    rw [calculateEffective_collect_limits]
    have hr' : (mapGet r (foldMax "limits" (containersOf podSpec "initContainers") [])).isSome :=
      hr
    cases hg : mapGet r (foldMax "limits" (containersOf podSpec "initContainers") []) with
    | none => simp [hg] at hr'
    | some q => simp

/-- C5 at `podMixed`: memory, a key of `InitMaxRequests`, is a key of
`EffectiveRequests`. -/
theorem initMax_keys_are_effective_keys_witness :
    Aggregate podMixed = .ok summaryMixed ∧ "memory" ∈ mapKeys summaryMixed.InitMaxRequests ∧
      "memory" ∈ mapKeys summaryMixed.EffectiveRequests ∧
      "cpu" ∈ mapKeys summaryMixed.EffectiveLimits :=
  ⟨rfl, by decide,
    (initMax_keys_are_effective_keys podMixed summaryMixed rfl "memory").1 (by decide),
    (initMax_keys_are_effective_keys podMixed summaryMixed rfl "cpu").2 (by decide)⟩

/-- C6: `Aggregate` returns an error, and with it no summary, exactly when
`initContainers` or `containers` is bound to something that is not a sequence,
whatever the other field holds; it returns a summary exactly when neither is,
that is when each field is absent or a sequence. -/
theorem aggregate_fails_iff_list_field_not_sequence (podSpec : List (String × Value)) :
    ((∃ err, Aggregate podSpec = .error err) ↔
        notSequence podSpec "initContainers" = true ∨ notSequence podSpec "containers" = true) ∧
      ((∃ s, Aggregate podSpec = .ok s) ↔
        notSequence podSpec "initContainers" = false ∧ notSequence podSpec "containers" = false) := by
  rw [Aggregate_eq]
  by_cases h1 : notSequence podSpec "initContainers" = true
  · simp [h1]
  · by_cases h2 : notSequence podSpec "containers" = true
    · simp [h1, h2]
    · simp [h1, h2]

/-- On `podBadContainers` the init container list is valid and is walked, and the
call still ends in the error of the `containers` field. -/
theorem podBadContainers_fails :
    Aggregate podBadContainers =
      .error { field := "containers", cause := { field := "containers" } } := rfl

/-! ## Resource names without entries -/

theorem mapGet_quantitiesOf_none (c : Value) (rt r : String)
    (h : ∀ v, (r, v) ∈ entriesOf c rt → quantityOf v = none) :
    mapGet r (quantitiesOf c rt) = none := by
  cases hg : mapGet r (quantitiesOf c rt) with
  | none => rfl
  | some q =>
    have hsome : (mapGet r (parseEntries (entriesOf c rt))).isSome := by
      have hg' : mapGet r (parseEntries (entriesOf c rt)) = some q := hg
      simp [hg']
    obtain ⟨v, hv, hq⟩ := (mapGet_parseEntries_isSome r (entriesOf c rt)).1 hsome
    rw [h v hv] at hq
    simp at hq

theorem mapGet_foldSum_none (rt r : String) (cs : List Value)
    (h : ∀ c ∈ cs, mapGet r (quantitiesOf c rt) = none) (m : QMap) :
    mapGet r (foldSum rt cs m) = mapGet r m := by
  rw [mapGet_foldSum]
  generalize mapGet r m = acc
  induction cs with
  | nil => rfl
  | cons c rest ih =>
    rw [List.foldl_cons, h c (List.mem_cons_self _ _)]
    exact ih (fun c' hc' => h c' (List.mem_cons_of_mem _ hc'))

theorem mapGet_foldMax_none (rt r : String) (cs : List Value)
    (h : ∀ c ∈ cs, mapGet r (quantitiesOf c rt) = none) (m : QMap) :
    mapGet r (foldMax rt cs m) = mapGet r m := by
  rw [mapGet_foldMax]
  generalize mapGet r m = acc
  induction cs with
  | nil => rfl
  | cons c rest ih =>
    rw [List.foldl_cons, h c (List.mem_cons_self _ _)]
    exact ih (fun c' hc' => h c' (List.mem_cons_of_mem _ hc'))

theorem limits_absent_of_no_entry (inits mains : List Value) (r : String)
    (h : ∀ c ∈ inits ++ mains, ∀ v, (r, v) ∈ entriesOf c "limits" → quantityOf v = none) :
    mapGet r (calculateEffective (collect inits mains)).TotalLimits = none ∧
      mapGet r (calculateEffective (collect inits mains)).InitMaxLimits = none ∧
      mapGet r (calculateEffective (collect inits mains)).EffectiveLimits = none := by
  have hmain : mapGet r (foldSum "limits" mains []) = none :=
    mapGet_foldSum_none "limits" r mains
      (fun c hc => mapGet_quantitiesOf_none c "limits" r
        (h c (List.mem_append_right _ hc))) []
  have hinit : mapGet r (foldMax "limits" inits []) = none :=
    mapGet_foldMax_none "limits" r inits
      (fun c hc => mapGet_quantitiesOf_none c "limits" r
        (h c (List.mem_append_left _ hc))) []
  refine ⟨hmain, hinit, ?_⟩
  rw [calculateEffective_collect_limits, hinit]

/-- C9: for a pod spec on which `Aggregate` succeeds and a resource name for
which no container, init or main, has a limits entry that parses, the name is
bound in none of `TotalLimits`, `InitMaxLimits` and `EffectiveLimits` (absent,
not bound to zero); and when no container has limits entries at all, the three
limits maps are empty. -/
theorem limits_absent_without_limits_entries (podSpec : List (String × Value)) (s : Summary)
    (h : Aggregate podSpec = .ok s) :
    (∀ r, (∀ c ∈ containersOf podSpec "initContainers" ++ containersOf podSpec "containers",
          ∀ v, (r, v) ∈ entriesOf c "limits" → quantityOf v = none) →
        mapGet r s.TotalLimits = none ∧ mapGet r s.InitMaxLimits = none ∧
          mapGet r s.EffectiveLimits = none) ∧
      ((∀ c ∈ containersOf podSpec "initContainers" ++ containersOf podSpec "containers",
          entriesOf c "limits" = []) →
        s.TotalLimits = [] ∧ s.InitMaxLimits = [] ∧ s.EffectiveLimits = []) := by
  obtain ⟨-, -, hs⟩ := (Aggregate_ok_iff podSpec s).1 h
  subst hs
  constructor
  · intro r hr
    exact limits_absent_of_no_entry _ _ r hr
  · intro hempty
    have hall : ∀ r, _ := fun r =>
      limits_absent_of_no_entry (containersOf podSpec "initContainers")
        (containersOf podSpec "containers") r
        (fun c hc v hv => by rw [hempty c hc] at hv; simp at hv)
    exact ⟨eq_nil_of_mapGet_none _ (fun r => (hall r).1),
      eq_nil_of_mapGet_none _ (fun r => (hall r).2.1),
      eq_nil_of_mapGet_none _ (fun r => (hall r).2.2)⟩

/-- C9 at `podRequestsOnly`, whose containers specify requests only, and at
`podMixed` for memory, which has requests but no limits entry anywhere. -/
theorem limits_absent_without_limits_entries_witness :
    (Aggregate podRequestsOnly = .ok summaryRequestsOnly ∧
      summaryRequestsOnly.TotalLimits = [] ∧ summaryRequestsOnly.InitMaxLimits = [] ∧
        summaryRequestsOnly.EffectiveLimits = []) ∧
    (Aggregate podMixed = .ok summaryMixed ∧
      mapGet "memory" summaryMixed.TotalLimits = none ∧
        mapGet "memory" summaryMixed.InitMaxLimits = none ∧
        mapGet "memory" summaryMixed.EffectiveLimits = none) :=
  ⟨⟨rfl, (limits_absent_without_limits_entries podRequestsOnly summaryRequestsOnly rfl).2
      (by simp [containersOf, podRequestsOnly, mapGet, entriesOf, asMap])⟩,
    ⟨rfl, (limits_absent_without_limits_entries podMixed summaryMixed rfl).1 "memory"
      (by simp [containersOf, podMixed, containerWith, mapGet, entriesOf, asMap])⟩⟩

/-- C10: a pod spec in which `initContainers` and `containers` are each absent
or an empty sequence aggregates without error to a summary whose six maps are
all empty. -/
theorem empty_pod_gives_empty_summary (podSpec : List (String × Value))
    (hinit : mapGet "initContainers" podSpec = none ∨
      mapGet "initContainers" podSpec = some (.list []))
    (hmain : mapGet "containers" podSpec = none ∨
      mapGet "containers" podSpec = some (.list [])) :
    Aggregate podSpec = .ok
      { TotalRequests := [], TotalLimits := [], InitMaxRequests := [],
        InitMaxLimits := [], EffectiveRequests := [], EffectiveLimits := [] } := by
  rw [Aggregate_eq]
  have h1 : notSequence podSpec "initContainers" = false := by
    rcases hinit with h | h <;> simp [notSequence, h]
  have h2 : notSequence podSpec "containers" = false := by
    rcases hmain with h | h <;> simp [notSequence, h]
  have c1 : containersOf podSpec "initContainers" = [] := by
    rcases hinit with h | h <;> simp [containersOf, h]
  have c2 : containersOf podSpec "containers" = [] := by
    rcases hmain with h | h <;> simp [containersOf, h]
  simp [h1, h2, c1, c2, collect, foldSum, foldMax, calculateEffective, effectiveOf]

/-- C10 at the pod spec with no fields and at one with an absent
`initContainers` and an empty `containers` sequence. -/
theorem empty_pod_gives_empty_summary_witness :
    Aggregate [] = .ok NewSummary ∧
      Aggregate [("restartPolicy", .str "Always"), ("containers", .list [])] = .ok NewSummary :=
  ⟨empty_pod_gives_empty_summary [] (Or.inl rfl) (Or.inl rfl),
    empty_pod_gives_empty_summary [("restartPolicy", .str "Always"), ("containers", .list [])]
      (Or.inl rfl) (Or.inr rfl)⟩

/-! ## Replacing one container by an equivalent one -/

/-- A container enters the traversal only through the quantities it contributes
for `requests` and for `limits`. -/
theorem processContainer_congr (c c' : Value)
    (hreq : quantitiesOf c' "requests" = quantitiesOf c "requests")
    (hlim : quantitiesOf c' "limits" = quantitiesOf c "limits") (s : Summary) (isInit : Bool) :
    processContainer s isInit c' = processContainer s isInit c := by
  cases isInit
  · rw [processContainer_main, processContainer_main, hreq, hlim]
  · rw [processContainer_init, processContainer_init, hreq, hlim]

theorem processContainers_replace (podSpec : List (String × Value)) (field : String)
    (pre post : List Value) (c c' : Value)
    (hget : mapGet field podSpec = some (.list (pre ++ c :: post)))
    (hc : ∀ s isInit, processContainer s isInit c' = processContainer s isInit c)
    (f : String) (s : Summary) (isInit : Bool) :
    processContainers (mapSet field (.list (pre ++ c' :: post)) podSpec) f s isInit =
      processContainers podSpec f s isInit := by
  unfold processContainers NestedSlice
  rw [mapGet_mapSet]
  by_cases hf : field = f
  · subst hf
    simp [hget, List.foldl_append, hc]
  · simp [hf]

/-- Replacing one element of a container list by a container that the loop body
treats alike leaves the aggregation unchanged. -/
theorem Aggregate_replace (podSpec : List (String × Value)) (field : String)
    (pre post : List Value) (c c' : Value)
    (hget : mapGet field podSpec = some (.list (pre ++ c :: post)))
    (hc : ∀ s isInit, processContainer s isInit c' = processContainer s isInit c) :
    Aggregate (mapSet field (.list (pre ++ c' :: post)) podSpec) = Aggregate podSpec := by
  unfold Aggregate
  simp only [processContainers_replace podSpec field pre post c c' hget hc]

theorem parseEntries_dropUnparsable (entries : List (String × Value)) :
    parseEntries (dropUnparsable entries) = parseEntries entries := by
  unfold parseEntries dropUnparsable
  generalize ([] : QMap) = acc
  induction entries generalizing acc with
  | nil => rfl
  | cons kv rest ih =>
    cases hq : quantityOf kv.2 with
    | none =>
      have hstep : parseEntry acc kv = acc := by
        unfold quantityOf at hq
        simp [parseEntry, hq]
      simp [List.filter_cons, hq, hstep, ih]
    | some q => simp [List.filter_cons, hq, ih]

theorem asMap_mapGet_mapSet (k r : String) (v : List (String × Value))
    (m : List (String × Value)) :
    asMap (mapGet r (mapSet k (.map v) m)) = if k = r then v else asMap (mapGet r m) := by
  rw [mapGet_mapSet]
  by_cases h : k = r <;> simp [h, asMap]

theorem quantitiesOf_stripUnparsable (c : Value) (rt k : String) :
    quantitiesOf (stripUnparsable c rt) k = quantitiesOf c k := by
  cases c with
  | map container =>
    cases hres : mapGet "resources" container with
    | none => simp [stripUnparsable, hres]
    | some resV =>
      cases resV with
      | map res =>
        cases hrt : mapGet rt res with
        | none => simp [stripUnparsable, hres, hrt]
        | some eV =>
          cases eV with
          | map entries =>
            simp only [stripUnparsable, hres, hrt, quantitiesOf, entriesOf, asMap_mapGet_mapSet,
              if_true]
            by_cases hk : rt = k
            · subst hk
              simp [hrt, asMap, parseEntries_dropUnparsable]
            · simp [hk, asMap]
          | _ => simp [stripUnparsable, hres, hrt]
      | _ => simp [stripUnparsable, hres]
  | _ => simp [stripUnparsable]

theorem quantitiesOf_withEmptyResources (c : Value) (k : String) :
    quantitiesOf (withEmptyResources c) k = quantitiesOf c k := by
  cases c with
  | map container =>
    cases hres : mapGet "resources" container with
    | none =>
      simp only [withEmptyResources, hres, quantitiesOf, entriesOf, asMap_mapGet_mapSet, if_true]
      simp [asMap, mapGet]
    | some resV => simp [withEmptyResources, hres]
  | _ => simp [withEmptyResources]

theorem quantitiesOf_withEmptyField (c : Value) (rt k : String) :
    quantitiesOf (withEmptyField c rt) k = quantitiesOf c k := by
  cases c with
  | map container =>
    cases hres : mapGet "resources" container with
    | none => simp [withEmptyField, hres]
    | some resV =>
      cases resV with
      | map res =>
        cases hrt : mapGet rt res with
        | none =>
          simp only [withEmptyField, hres, hrt, quantitiesOf, entriesOf, asMap_mapGet_mapSet,
            if_true]
          by_cases hk : rt = k
          · subst hk
            simp [hrt, asMap]
          · simp [hk, asMap]
        | some eV => simp [withEmptyField, hres, hrt]
      | _ => simp [withEmptyField, hres]
  | _ => simp [withEmptyField]

/-- C7: in a pod spec with well-shaped container lists, deleting from one
container's `requests` or `limits` map every entry whose value fails to parse
leaves the outcome of `Aggregate` unchanged, and that outcome is a summary, not
an error; and a map with one unparsable and one valid value contributes exactly
the valid one. -/
theorem malformed_entries_are_isolated (podSpec : List (String × Value)) (field : String)
    (pre post : List Value) (c : Value) (rt : String)
    (hshape : notSequence podSpec "initContainers" = false ∧
      notSequence podSpec "containers" = false)
    (hget : mapGet field podSpec = some (.list (pre ++ c :: post))) :
    (∃ s, Aggregate podSpec = .ok s ∧
        Aggregate (mapSet field (.list (pre ++ stripUnparsable c rt :: post)) podSpec) = .ok s) ∧
      ∀ k1 v1 k2 v2 q, quantityOf v1 = none → quantityOf v2 = some q →
        parseEntries [(k1, v1), (k2, v2)] = [(k2, q)] ∧
          parseEntries [(k2, v2), (k1, v1)] = [(k2, q)] := by
  constructor
  · refine ⟨_, (Aggregate_ok_iff podSpec _).2 ⟨hshape.1, hshape.2, rfl⟩, ?_⟩
    rw [Aggregate_replace podSpec field pre post c (stripUnparsable c rt) hget
      (processContainer_congr c (stripUnparsable c rt)
        (quantitiesOf_stripUnparsable c rt "requests")
        (quantitiesOf_stripUnparsable c rt "limits"))]
    exact (Aggregate_ok_iff podSpec _).2 ⟨hshape.1, hshape.2, rfl⟩
  · intro k1 v1 k2 v2 q h1 h2
    unfold quantityOf at h1 h2
    simp [parseEntries, parseEntry, h1, h2, mapSet]

/-- C7 at `podMalformed`: the container asking for cpu "lots" and memory "64Mi"
contributes the memory only, with or without the cpu entry. -/
theorem malformed_entries_are_isolated_witness :
    stripUnparsable (containerWith [("cpu", .str "lots"), ("memory", .str "64Mi")]
        [("cpu", .str "1")]) "requests" =
      containerWith [("memory", .str "64Mi")] [("cpu", .str "1")] ∧
    Aggregate podMalformed = .ok summaryMalformed ∧
    ∃ s, Aggregate podMalformed = .ok s ∧
      Aggregate (mapSet "containers" (.list ([.map [("name", .str "sidecar")]] ++
        stripUnparsable (containerWith [("cpu", .str "lots"), ("memory", .str "64Mi")]
          [("cpu", .str "1")]) "requests" :: [])) podMalformed) = .ok s :=
  ⟨rfl, rfl,
    (malformed_entries_are_isolated podMalformed "containers"
      [.map [("name", .str "sidecar")]] []
      (containerWith [("cpu", .str "lots"), ("memory", .str "64Mi")] [("cpu", .str "1")])
      "requests" ⟨rfl, rfl⟩ rfl).1⟩

/-- C8: replacing, in one container of either list, an absent `resources`
field, or an absent `requests` or `limits` field of its resources, by an empty
mapping leaves the outcome of `Aggregate` unchanged; and the loop body leaves
the summary, all six maps, as it was on a container with no `resources`. -/
theorem absent_fields_are_empty_contributions (podSpec : List (String × Value))
    (field : String) (pre post : List Value) (c : Value)
    (hget : mapGet field podSpec = some (.list (pre ++ c :: post))) :
    Aggregate (mapSet field (.list (pre ++ withEmptyResources c :: post)) podSpec) =
        Aggregate podSpec ∧
      (∀ rt, Aggregate (mapSet field (.list (pre ++ withEmptyField c rt :: post)) podSpec) =
        Aggregate podSpec) ∧
      ∀ container s isInit, mapGet "resources" container = none →
        processContainer s isInit (.map container) = s := by
  refine ⟨?_, ?_, ?_⟩
  · exact Aggregate_replace podSpec field pre post c (withEmptyResources c) hget
      (processContainer_congr c (withEmptyResources c)
        (quantitiesOf_withEmptyResources c "requests")
        (quantitiesOf_withEmptyResources c "limits"))
  · intro rt
    exact Aggregate_replace podSpec field pre post c (withEmptyField c rt) hget
      (processContainer_congr c (withEmptyField c rt)
        (quantitiesOf_withEmptyField c rt "requests")
        (quantitiesOf_withEmptyField c rt "limits"))
  · intro container s isInit hres
    cases isInit
    · rw [processContainer_main]
      simp [quantitiesOf, entriesOf, hres, asMap, mapGet, parseEntries, sumValues]
    · rw [processContainer_init]
      simp [quantitiesOf, entriesOf, hres, asMap, mapGet, parseEntries, updateMax]

/-- C8 at `podRequestsOnly`: giving the sidecar, which has no `resources`, an
empty one, and giving the first main container, which has no `limits`, an empty
one, both leave the summary as it is. -/
theorem absent_fields_are_empty_contributions_witness :
    withEmptyResources (.map [("name", .str "sidecar")]) =
        .map [("name", .str "sidecar"), ("resources", .map [])] ∧
      Aggregate (mapSet "containers" (.list
        ([.map [("resources", .map [("requests", .map [("cpu", .str "100m")])])]] ++
          withEmptyResources (.map [("name", .str "sidecar")]) :: [])) podRequestsOnly) =
        .ok summaryRequestsOnly ∧
      Aggregate (mapSet "containers" (.list
        ([] ++ withEmptyField
            (.map [("resources", .map [("requests", .map [("cpu", .str "100m")])])]) "limits" ::
          [.map [("name", .str "sidecar")]])) podRequestsOnly) =
        .ok summaryRequestsOnly :=
  ⟨rfl,
    (absent_fields_are_empty_contributions podRequestsOnly "containers"
      [.map [("resources", .map [("requests", .map [("cpu", .str "100m")])])]] []
      (.map [("name", .str "sidecar")]) rfl).1.trans rfl,
    ((absent_fields_are_empty_contributions podRequestsOnly "containers" []
      [.map [("name", .str "sidecar")]]
      (.map [("resources", .map [("requests", .map [("cpu", .str "100m")])])]) rfl).2.1
        "limits").trans rfl⟩

/-! ## The effective keys are the init-max keys -/

theorem foldSum_isSome (rt r : String) (cs : List Value) :
    (mapGet r (foldSum rt cs [])).isSome ↔ ∃ c ∈ cs, (mapGet r (quantitiesOf c rt)).isSome := by
  rw [mapGet_foldSum, foldl_contributions addTo (fun c => mapGet r (quantitiesOf c rt)),
    foldl_some_isSome, filterMap_ne_nil_iff]
  simp [mapGet]

theorem foldMax_isSome (rt r : String) (cs : List Value) :
    (mapGet r (foldMax rt cs [])).isSome ↔ ∃ c ∈ cs, (mapGet r (quantitiesOf c rt)).isSome := by
  rw [mapGet_foldMax, foldl_contributions keepMax (fun c => mapGet r (quantitiesOf c rt)),
    foldl_some_isSome, filterMap_ne_nil_iff]
  simp [mapGet]

theorem effective_requests_isSome (inits mains : List Value) (r : String) :
    (mapGet r (calculateEffective (collect inits mains)).EffectiveRequests).isSome ↔
      (mapGet r (foldMax "requests" inits [])).isSome := by
  rw [calculateEffective_collect_requests]
  cases mapGet r (foldMax "requests" inits []) <;> simp

theorem effective_limits_isSome (inits mains : List Value) (r : String) :
    (mapGet r (calculateEffective (collect inits mains)).EffectiveLimits).isSome ↔
      (mapGet r (foldMax "limits" inits [])).isSome := by
  rw [calculateEffective_collect_limits]
  cases mapGet r (foldMax "limits" inits []) <;> simp

/-- C14: in every summary that `Aggregate` returns, the keys of
`EffectiveRequests` are exactly the keys of `InitMaxRequests`, and those of
`EffectiveLimits` exactly those of `InitMaxLimits`; so a resource name for which
only main containers have a parseable requests entry is a key of `TotalRequests`
and not of `EffectiveRequests`, and a pod spec with no init containers has empty
`EffectiveRequests` and `EffectiveLimits`, whatever its main containers ask. -/
theorem effective_keys_are_initMax_keys (podSpec : List (String × Value)) (s : Summary)
    (h : Aggregate podSpec = .ok s) :
    (∀ r, r ∈ mapKeys s.EffectiveRequests ↔ r ∈ mapKeys s.InitMaxRequests) ∧
      (∀ r, r ∈ mapKeys s.EffectiveLimits ↔ r ∈ mapKeys s.InitMaxLimits) ∧
      (∀ r, (∃ c ∈ containersOf podSpec "containers", ∃ v,
            (r, v) ∈ entriesOf c "requests" ∧ (quantityOf v).isSome) →
          (∀ c ∈ containersOf podSpec "initContainers", ∀ v,
            (r, v) ∈ entriesOf c "requests" → quantityOf v = none) →
          r ∈ mapKeys s.TotalRequests ∧ r ∉ mapKeys s.EffectiveRequests) ∧
      (containersOf podSpec "initContainers" = [] →
        s.EffectiveRequests = [] ∧ s.EffectiveLimits = []) := by
  obtain ⟨-, -, hs⟩ := (Aggregate_ok_iff podSpec s).1 h
  subst hs
  have hreq : ∀ r, r ∈ mapKeys (calculateEffective (collect (containersOf podSpec "initContainers")
        (containersOf podSpec "containers"))).EffectiveRequests ↔
      r ∈ mapKeys (foldMax "requests" (containersOf podSpec "initContainers") []) := by
    intro r
    rw [mem_mapKeys_iff, mem_mapKeys_iff]
    exact effective_requests_isSome _ _ r
  have hlim : ∀ r, r ∈ mapKeys (calculateEffective (collect (containersOf podSpec "initContainers")
        (containersOf podSpec "containers"))).EffectiveLimits ↔
      r ∈ mapKeys (foldMax "limits" (containersOf podSpec "initContainers") []) := by
    intro r
    rw [mem_mapKeys_iff, mem_mapKeys_iff]
    exact effective_limits_isSome _ _ r
  refine ⟨hreq, hlim, ?_, ?_⟩
  · intro r ⟨c, hc, v, hv, hq⟩ hinit
    constructor
    · rw [mem_mapKeys_iff]
      exact (foldSum_isSome "requests" r _).2
        ⟨c, hc, (mapGet_parseEntries_isSome r (entriesOf c "requests")).2 ⟨v, hv, hq⟩⟩
    · rw [hreq r, mem_mapKeys_iff, foldMax_isSome]
      rintro ⟨c', hc', hsome⟩
      rw [mapGet_quantitiesOf_none c' "requests" r (hinit c' hc')] at hsome
      simp at hsome
  · intro hnil
    constructor
    · apply eq_nil_of_mapGet_none
      intro r
      rw [calculateEffective_collect_requests, hnil]
      rfl
    · apply eq_nil_of_mapGet_none
      intro r
      rw [calculateEffective_collect_limits, hnil]
      rfl

/-- C14 at `podMainOnly`: cpu is asked for by the main container alone, so it is
a key of `TotalRequests` and the effective maps are empty. -/
theorem effective_keys_are_initMax_keys_witness :
    ∃ s, Aggregate podMainOnly = .ok s ∧ "cpu" ∈ mapKeys s.TotalRequests ∧
      "cpu" ∉ mapKeys s.EffectiveRequests ∧ s.EffectiveRequests = [] ∧ s.EffectiveLimits = [] :=
  ⟨_, rfl,
    ((effective_keys_are_initMax_keys podMainOnly _ rfl).2.2.1 "cpu"
      ⟨containerWith [("cpu", .str "100m")] [], by simp [containersOf, podMainOnly, mapGet],
        .str "100m", by simp [entriesOf, containerWith, mapGet, asMap], by decide⟩
      (by simp [containersOf, podMainOnly, mapGet])).1,
    ((effective_keys_are_initMax_keys podMainOnly _ rfl).2.2.1 "cpu"
      ⟨containerWith [("cpu", .str "100m")] [], by simp [containersOf, podMainOnly, mapGet],
        .str "100m", by simp [entriesOf, containerWith, mapGet, asMap], by decide⟩
      (by simp [containersOf, podMainOnly, mapGet])).2,
    (effective_keys_are_initMax_keys podMainOnly _ rfl).2.2.2 rfl⟩

/-! ## Phases and kinds -/

/-- C17: an init container only writes the two init-max maps and a main
container only the two total maps, a `requests` map never changes a limits map
nor a `limits` map a requests map; hence replacing the `initContainers` list by
any other sequence leaves `TotalRequests` and `TotalLimits` as they are, and
replacing the `containers` list by any other sequence leaves `InitMaxRequests`
and `InitMaxLimits` as they are. -/
theorem phases_and_kinds_are_separate (podSpec : List (String × Value)) (s : Summary)
    (h : Aggregate podSpec = .ok s) (others : List Value) :
    (∃ s', Aggregate (mapSet "initContainers" (.list others) podSpec) = .ok s' ∧
        s'.TotalRequests = s.TotalRequests ∧ s'.TotalLimits = s.TotalLimits) ∧
      (∃ s', Aggregate (mapSet "containers" (.list others) podSpec) = .ok s' ∧
        s'.InitMaxRequests = s.InitMaxRequests ∧ s'.InitMaxLimits = s.InitMaxLimits) ∧
      (∀ s0 c, (processContainer s0 true c).TotalRequests = s0.TotalRequests ∧
        (processContainer s0 true c).TotalLimits = s0.TotalLimits) ∧
      (∀ s0 c, (processContainer s0 false c).InitMaxRequests = s0.InitMaxRequests ∧
        (processContainer s0 false c).InitMaxLimits = s0.InitMaxLimits) ∧
      (∀ res s0 isInit,
        (processResource res "requests" s0 isInit updateMax sumValues).TotalLimits =
            s0.TotalLimits ∧
          (processResource res "requests" s0 isInit updateMax sumValues).InitMaxLimits =
            s0.InitMaxLimits ∧
          (processResource res "limits" s0 isInit updateMax sumValues).TotalRequests =
            s0.TotalRequests ∧
          (processResource res "limits" s0 isInit updateMax sumValues).InitMaxRequests =
            s0.InitMaxRequests) := by
  obtain ⟨h1, h2, hs⟩ := (Aggregate_ok_iff podSpec s).1 h
  subst hs
  refine ⟨?_, ?_, ?_, ?_, ?_⟩
  · refine ⟨_, (Aggregate_ok_iff _ _).2 ⟨?_, ?_, rfl⟩, ?_, ?_⟩
    · simp [notSequence, mapGet_mapSet_self]
    · simpa [notSequence, mapGet_mapSet_ne "initContainers" "containers" _ _ (by decide)]
        using h2
    · simp [calculateEffective, collect, containersOf,
        mapGet_mapSet_ne "initContainers" "containers" _ _ (by decide)]
    · simp [calculateEffective, collect, containersOf,
        mapGet_mapSet_ne "initContainers" "containers" _ _ (by decide)]
  · refine ⟨_, (Aggregate_ok_iff _ _).2 ⟨?_, ?_, rfl⟩, ?_, ?_⟩
    · simpa [notSequence, mapGet_mapSet_ne "containers" "initContainers" _ _ (by decide)]
        using h1
    · simp [notSequence, mapGet_mapSet_self]
    · simp [calculateEffective, collect, containersOf,
        mapGet_mapSet_ne "containers" "initContainers" _ _ (by decide)]
    · simp [calculateEffective, collect, containersOf,
        mapGet_mapSet_ne "containers" "initContainers" _ _ (by decide)]
  · intro s0 c
    rw [processContainer_init]
    exact ⟨rfl, rfl⟩
  · intro s0 c
    rw [processContainer_main]
    exact ⟨rfl, rfl⟩
  · intro res s0 isInit
    cases isInit <;> simp [processResource, getTargetMap, setTargetMap]

/-- C17 at `podMixed`: with the init containers replaced by those of
`podRequestsOnly` the totals stay those of `summaryMixed`, and with the main
containers replaced by the empty list the init maxima stay. -/
theorem phases_and_kinds_are_separate_witness :
    (∃ s', Aggregate (mapSet "initContainers"
        (.list (containersOf podRequestsOnly "initContainers")) podMixed) = .ok s' ∧
      s'.TotalRequests = summaryMixed.TotalRequests ∧
        s'.TotalLimits = summaryMixed.TotalLimits) ∧
    (∃ s', Aggregate (mapSet "containers" (.list []) podMixed) = .ok s' ∧
      s'.InitMaxRequests = summaryMixed.InitMaxRequests ∧
        s'.InitMaxLimits = summaryMixed.InitMaxLimits) :=
  ⟨(phases_and_kinds_are_separate podMixed summaryMixed rfl
      (containersOf podRequestsOnly "initContainers")).1,
    (phases_and_kinds_are_separate podMixed summaryMixed rfl []).2.1⟩

/-! ## Elements that are not mappings -/

theorem quantitiesOf_of_not_mapping (c : Value) (rt : String) (hc : isMapping c = false) :
    quantitiesOf c rt = [] := by
  cases c <;> simp_all [isMapping, quantitiesOf, entriesOf, parseEntries]

theorem foldSum_filter_isMapping (rt : String) (cs : List Value) (m : QMap) :
    foldSum rt (cs.filter isMapping) m = foldSum rt cs m := by
  induction cs generalizing m with
  | nil => rfl
  | cons c rest ih =>
    cases hc : isMapping c with
    | true =>
      simp only [List.filter_cons, hc, if_true]
      simp only [foldSum, List.foldl_cons] at ih ⊢
      exact ih _
    | false =>
      simp only [List.filter_cons, hc]
      simp only [foldSum, List.foldl_cons] at ih ⊢
      rw [quantitiesOf_of_not_mapping c rt hc, sumValues_nil]
      simpa using ih m

theorem foldMax_filter_isMapping (rt : String) (cs : List Value) (m : QMap) :
    foldMax rt (cs.filter isMapping) m = foldMax rt cs m := by
  induction cs generalizing m with
  | nil => rfl
  | cons c rest ih =>
    cases hc : isMapping c with
    | true =>
      simp only [List.filter_cons, hc, if_true]
      simp only [foldMax, List.foldl_cons] at ih ⊢
      exact ih _
    | false =>
      simp only [List.filter_cons, hc]
      simp only [foldMax, List.foldl_cons] at ih ⊢
      rw [quantitiesOf_of_not_mapping c rt hc, updateMax_nil]
      simpa using ih m

theorem mapGet_keepMappings (podSpec : List (String × Value)) (field f : String) :
    mapGet f (keepMappings podSpec field) =
      if field = f then
        match mapGet f podSpec with
        | some (.list items) => some (.list (items.filter isMapping))
        | other => other
      else mapGet f podSpec := by
  unfold keepMappings
  by_cases hf : field = f
  · subst hf
    cases hg : mapGet field podSpec with
    | none => simp [hg]
    | some v => cases v <;> simp [hg, mapGet_mapSet_self]
  · cases hg : mapGet field podSpec with
    | none => simp [hf]
    | some v => cases v <;> simp [hf, mapGet_mapSet_ne _ _ _ _ hf]

theorem notSequence_onlyMappings (podSpec : List (String × Value)) (f : String) :
    notSequence (onlyMappings podSpec) f = notSequence podSpec f := by
  unfold notSequence onlyMappings
  rw [mapGet_keepMappings, mapGet_keepMappings]
  by_cases h1 : "containers" = f <;> by_cases h2 : "initContainers" = f <;>
    simp only [h1, h2, if_true, if_false] <;>
    (cases mapGet f podSpec with
      | none => rfl
      | some v => cases v <;> rfl)

theorem containersOf_onlyMappings (podSpec : List (String × Value)) (f : String)
    (hf : f = "initContainers" ∨ f = "containers") :
    containersOf (onlyMappings podSpec) f = (containersOf podSpec f).filter isMapping := by
  unfold containersOf onlyMappings
  rw [mapGet_keepMappings, mapGet_keepMappings]
  rcases hf with hf | hf <;> subst hf <;>
    (cases mapGet _ podSpec with
      | none => simp
      | some v => cases v <;> simp)

/-- C18: an element of either container list that is not a mapping is skipped
without error: the loop body leaves the summary as it is on such an element,
and `Aggregate` gives the same outcome as on the pod spec with every such
element removed from both lists. -/
theorem non_mapping_elements_are_skipped (podSpec : List (String × Value)) :
    Aggregate (onlyMappings podSpec) = Aggregate podSpec ∧
      ∀ s isInit c, isMapping c = false → processContainer s isInit c = s := by
  constructor
  · rw [Aggregate_eq, Aggregate_eq, notSequence_onlyMappings, notSequence_onlyMappings,
      containersOf_onlyMappings podSpec "initContainers" (Or.inl rfl),
      containersOf_onlyMappings podSpec "containers" (Or.inr rfl)]
    simp [collect, foldSum_filter_isMapping, foldMax_filter_isMapping]
  · intro s isInit c hc
    cases c <;> simp_all [isMapping, processContainer]

/-- C18 at `podWithStrays`: the number among the init containers and the string
and the null among the main containers are dropped, and the outcome is that of
the one container that is left. -/
theorem non_mapping_elements_are_skipped_witness :
    onlyMappings podWithStrays =
        [("initContainers", .list []),
         ("containers", .list [containerWith [("cpu", .str "100m")] []])] ∧
      Aggregate (onlyMappings podWithStrays) = Aggregate podWithStrays ∧
      (∃ s, Aggregate podWithStrays = .ok s ∧
        s.TotalRequests = [("cpu", ⟨100000000, .DecimalSI⟩)]) ∧
      processContainer summaryMixed false (.str "oops") = summaryMixed :=
  ⟨rfl, (non_mapping_elements_are_skipped podWithStrays).1, ⟨_, rfl, rfl⟩,
    (non_mapping_elements_are_skipped podWithStrays).2 summaryMixed false (.str "oops") rfl⟩

/-! ## Suffix equivalence -/

theorem parseEntries_mapSet_same (k : String) (old new : Value)
    (entries : List (String × Value)) (hget : mapGet k entries = some old)
    (hq : quantityOf new = quantityOf old) :
    parseEntries (mapSet k new entries) = parseEntries entries := by
  unfold parseEntries
  generalize ([] : QMap) = acc
  induction entries generalizing acc with
  | nil => simp [mapGet] at hget
  | cons p rest ih =>
    obtain ⟨k', v'⟩ := p
    by_cases hk : k' = k
    · subst hk
      have hv : v' = old := by simpa [mapGet] using hget
      subst hv
      have hstep : parseEntry acc (k', new) = parseEntry acc (k', v') := by
        unfold quantityOf at hq
        simp [parseEntry, hq]
      simp [mapSet, hstep]
    · have hrest : mapGet k rest = some old := by simpa [mapGet, hk] using hget
      simp [mapSet, hk, ih hrest]

theorem quantitiesOf_setEntry (c : Value) (rt k f : String) (old new : Value)
    (hget : mapGet k (entriesOf c rt) = some old) (hq : quantityOf new = quantityOf old) :
    quantitiesOf (setEntry c rt k new) f = quantitiesOf c f := by
  cases c with
  | map container =>
    cases hres : mapGet "resources" container with
    | none => simp [setEntry, hres]
    | some resV =>
      cases resV with
      | map res =>
        cases hrt : mapGet rt res with
        | none => simp [setEntry, hres, hrt]
        | some eV =>
          cases eV with
          | map entries =>
            have hget' : mapGet k entries = some old := by
              simpa [entriesOf, hres, hrt, asMap] using hget
            simp only [setEntry, hres, hrt, quantitiesOf, entriesOf, asMap_mapGet_mapSet,
              if_true]
            by_cases hf : rt = f
            · subst hf
              simp [hrt, asMap, parseEntries_mapSet_same k old new entries hget' hq]
            · simp [hf, asMap]
          | _ => simp [setEntry, hres, hrt]
      | _ => simp [setEntry, hres]
  | _ => simp [setEntry]

/-- C12: the quantities parsed from "1" and from "1000m" compare equal, and in a
pod spec, writing "1000m" for a container's entry value "1", or "1" for
"1000m", leaves the outcome of `Aggregate` as it is, hence the magnitude under
every key of the six maps, whether the container is an init container, folded
by maximum, or a main container, folded by sum. -/
theorem suffix_equivalence (podSpec : List (String × Value)) (field : String)
    (pre post : List Value) (c : Value) (rt k : String)
    (hget : mapGet field podSpec = some (.list (pre ++ c :: post))) :
    (∃ q q', ParseQuantity "1" = some q ∧ ParseQuantity "1000m" = some q' ∧
        q.Cmp q' = 0 ∧ q'.Cmp q = 0) ∧
      (mapGet k (entriesOf c rt) = some (.str "1") →
        Aggregate (mapSet field (.list (pre ++ setEntry c rt k (.str "1000m") :: post)) podSpec) =
          Aggregate podSpec) ∧
      (mapGet k (entriesOf c rt) = some (.str "1000m") →
        Aggregate (mapSet field (.list (pre ++ setEntry c rt k (.str "1") :: post)) podSpec) =
          Aggregate podSpec) := by
  have hsame : quantityOf (.str "1000m") = quantityOf (.str "1") := by decide
  refine ⟨⟨_, _, rfl, rfl, by decide, by decide⟩, ?_, ?_⟩
  · intro hk
    exact Aggregate_replace podSpec field pre post c _ hget
      (processContainer_congr c _
        (quantitiesOf_setEntry c rt k "requests" _ _ hk hsame)
        (quantitiesOf_setEntry c rt k "limits" _ _ hk hsame))
  · intro hk
    exact Aggregate_replace podSpec field pre post c _ hget
      (processContainer_congr c _
        (quantitiesOf_setEntry c rt k "requests" _ _ hk hsame.symm)
        (quantitiesOf_setEntry c rt k "limits" _ _ hk hsame.symm))

/-- C12 at `podOneCpu`: "1000m" for the "1" cpu that the main container requests
(a sum) and for the "1" cpu that the init container is limited to (a maximum). -/
theorem suffix_equivalence_witness :
    setEntry (containerWith [("cpu", .str "1")] []) "requests" "cpu" (.str "1000m") =
        containerWith [("cpu", .str "1000m")] [] ∧
      Aggregate (mapSet "containers" (.list ([] ++
          setEntry (containerWith [("cpu", .str "1")] []) "requests" "cpu" (.str "1000m") :: []))
          podOneCpu) = Aggregate podOneCpu ∧
      Aggregate (mapSet "initContainers" (.list ([] ++
          setEntry (containerWith [] [("cpu", .str "1")]) "limits" "cpu" (.str "1000m") :: []))
          podOneCpu) = Aggregate podOneCpu :=
  ⟨rfl,
    (suffix_equivalence podOneCpu "containers" [] [] (containerWith [("cpu", .str "1")] [])
      "requests" "cpu" rfl).2.1 rfl,
    (suffix_equivalence podOneCpu "initContainers" [] [] (containerWith [] [("cpu", .str "1")])
      "limits" "cpu" rfl).2.1 rfl⟩

/-! ## Ties of the running maximum -/

theorem keepMax_eq (acc : Option Quantity) (v : Quantity) :
    keepMax acc v =
      match acc with
      | some current => if current.nanos < v.nanos then v else current
      | none => v := by
  cases acc with
  | none => rfl
  | some a =>
    by_cases hc : v.Cmp a > 0
    · have hlt := (cmp_pos_iff v a).1 hc
      simp [keepMax, hc, hlt]
    · have hlt : ¬ a.nanos < v.nanos := fun h1 => hc ((cmp_pos_iff v a).2 h1)
      simp [keepMax, hc, hlt]

/-- The running maximum over a list of containers ends on the initial value,
which then bounds every contribution, or on the contribution of the first
container that is strictly above everything before it and bounds everything
after it. -/
theorem foldl_keepMax_first (f : Value → Option Quantity) (cs : List Value)
    (acc : Option Quantity) (q : Quantity)
    (h : cs.foldl (fun acc c =>
        match f c with
        | some v => some (keepMax acc v)
        | none => acc) acc = some q) :
    (acc = some q ∧ ∀ c ∈ cs, ∀ v, f c = some v → v.nanos ≤ q.nanos) ∨
      ∃ pre c post, cs = pre ++ c :: post ∧ f c = some q ∧
        (∀ a, acc = some a → a.nanos < q.nanos) ∧
        (∀ c' ∈ pre, ∀ v, f c' = some v → v.nanos < q.nanos) ∧
        (∀ c' ∈ post, ∀ v, f c' = some v → v.nanos ≤ q.nanos) := by
  induction cs generalizing acc with
  | nil =>
    left
    exact ⟨by simpa using h, by simp⟩
  | cons c rest ih =>
    rw [List.foldl_cons] at h
    cases hc : f c with
    | none =>
      rw [hc] at h
      rcases ih acc h with ⟨h1, h2⟩ | ⟨pre, c0, post, h1, h2, h3, h4, h5⟩
      · left
        refine ⟨h1, ?_⟩
        intro c' hc' v hv
        rcases List.mem_cons.1 hc' with hc' | hc'
        · subst hc'
          rw [hc] at hv
          cases hv
        · exact h2 c' hc' v hv
      · right
        refine ⟨c :: pre, c0, post, by simp [h1], h2, h3, ?_, h5⟩
        intro c' hc' v hv
        rcases List.mem_cons.1 hc' with hc' | hc'
        · subst hc'
          rw [hc] at hv
          cases hv
        · exact h4 c' hc' v hv
    | some w =>
      rw [hc] at h
      rcases ih _ h with ⟨h1, h2⟩ | ⟨pre, c0, post, h1, h2, h3, h4, h5⟩
      · have hq : keepMax acc w = q := by simpa using h1
        cases acc with
        | none =>
          have hkm : keepMax none w = w := rfl
          right
          refine ⟨[], c, rest, rfl, ?_, by simp, by simp, h2⟩
          rw [hc, ← hq, hkm]
        | some a =>
          have hkm := keepMax_eq (some a) w
          simp only at hkm
          by_cases hlt : a.nanos < w.nanos
          · right
            rw [if_pos hlt] at hkm
            refine ⟨[], c, rest, rfl, ?_, ?_, by simp, h2⟩
            · rw [hc, ← hq, hkm]
            · intro a' ha'
              cases ha'
              rw [← hq, hkm]
              exact hlt
          · left
            rw [if_neg hlt] at hkm
            refine ⟨by rw [← hq, hkm], ?_⟩
            intro c' hc' v hv
            rcases List.mem_cons.1 hc' with hc' | hc'
            · subst hc'
              rw [hc] at hv
              cases hv
              rw [← hq, hkm]
              omega
            · exact h2 c' hc' v hv
      · right
        have hbound := h3 _ rfl
        obtain ⟨-, k2, k3⟩ := keepMax_cases acc w
        refine ⟨c :: pre, c0, post, by simp [h1], h2, ?_, ?_, h5⟩
        · intro a ha
          have := k3 a ha
          omega
        · intro c' hc' v hv
          rcases List.mem_cons.1 hc' with hc' | hc'
          · subst hc'
            rw [hc] at hv
            cases hv
            omega
          · exact h4 c' hc' v hv

theorem foldMax_first (rt r : String) (cs : List Value)
    (hkeys : ∀ c ∈ cs, DistinctKeys (entriesOf c rt)) (q : Quantity)
    (hq : mapGet r (foldMax rt cs []) = some q) :
    ∃ pre c post, cs = pre ++ c :: post ∧ entryOf c rt r = some q ∧
      (∀ c' ∈ pre, ∀ v, entryOf c' rt r = some v → v.nanos < q.nanos) ∧
      (∀ c' ∈ post, ∀ v, entryOf c' rt r = some v → v.nanos ≤ q.nanos) := by
  have hfold : cs.foldl (fun acc c =>
      match entryOf c rt r with
      | some v => some (keepMax acc v)
      | none => acc) none = some q := by
    have h1 := mapGet_foldMax rt r cs []
    rw [quantitiesOf_congr rt r cs hkeys keepMax, hq] at h1
    exact (foldl_contributions keepMax (fun c => entryOf c rt r) cs none).trans h1.symm
  rcases foldl_keepMax_first (fun c => entryOf c rt r) cs none q hfold with
    ⟨h1, -⟩ | ⟨pre, c, post, h1, h2, -, h4, h5⟩
  · cases h1
  · exact ⟨pre, c, post, h1, h2, h4, h5⟩

/-- C15: one step of `updateMax` stores the visited quantity when its name is
unseen or its magnitude is strictly greater than the stored one, and leaves the
map as it is otherwise; so what `InitMaxRequests` binds to a name is the entry,
suffix family included, of the first init container in list order that attains
the largest magnitude: the entries before it are strictly smaller, and no entry
after it, of equal magnitude or less, replaces it. -/
theorem initMax_keeps_first_of_equal_maxima (podSpec : List (String × Value)) (s : Summary)
    (h : Aggregate podSpec = .ok s)
    (hkeys : ∀ c ∈ containersOf podSpec "initContainers", DistinctKeys (entriesOf c "requests"))
    (r : String) (q : Quantity) (hq : mapGet r s.InitMaxRequests = some q) :
    (∃ pre c post, containersOf podSpec "initContainers" = pre ++ c :: post ∧
        entryOf c "requests" r = some q ∧
        (∀ c' ∈ pre, ∀ v, entryOf c' "requests" r = some v → v.nanos < q.nanos) ∧
        (∀ c' ∈ post, ∀ v, entryOf c' "requests" r = some v → v.nanos ≤ q.nanos)) ∧
      ∀ (dest : QMap) (k : String) (v : Quantity),
        updateMaxStep dest (k, v) =
          match mapGet k dest with
          | none => mapSet k v dest
          | some current => if current.nanos < v.nanos then mapSet k v dest else dest := by
  obtain ⟨-, -, hs⟩ := (Aggregate_ok_iff podSpec s).1 h
  subst hs
  constructor
  · exact foldMax_first "requests" r _ hkeys q hq
  · intro dest k v
    unfold updateMaxStep
    cases mapGet k dest with
    | none => rfl
    | some current =>
      by_cases hc : v.Cmp current > 0
      · have hlt := (cmp_pos_iff v current).1 hc
        simp [hc, hlt]
      · have hlt : ¬ current.nanos < v.nanos := fun h1 => hc ((cmp_pos_iff v current).2 h1)
        simp [hc, hlt]

/-- C15 at `podTie`: "1Gi" comes first and "1073741824" second, both of the same
magnitude; the init maximum is the first one, in the binary suffix family. -/
theorem initMax_keeps_first_of_equal_maxima_witness :
    ∃ s, Aggregate podTie = .ok s ∧
      mapGet "memory" s.InitMaxRequests = some ⟨1073741824000000000, .BinarySI⟩ ∧
      ∃ pre c post, containersOf podTie "initContainers" = pre ++ c :: post ∧
        entryOf c "requests" "memory" = some ⟨1073741824000000000, .BinarySI⟩ ∧
        (∀ c' ∈ pre, ∀ v, entryOf c' "requests" "memory" = some v →
          v.nanos < 1073741824000000000) ∧
        (∀ c' ∈ post, ∀ v, entryOf c' "requests" "memory" = some v →
          v.nanos ≤ 1073741824000000000) :=
  ⟨_, rfl, by decide,
    (initMax_keeps_first_of_equal_maxima podTie _ rfl (by decide) "memory"
      ⟨1073741824000000000, .BinarySI⟩ (by decide)).1⟩

/-! ## The order of the containers -/

theorem foldl_addTo_magnitude (vs : List Quantity) :
    (vs.foldl (fun acc v => some (addTo acc v)) none).map Quantity.nanos =
      if vs = [] then none else some (vs.map Quantity.nanos).sum := by
  cases hres : vs.foldl (fun acc v => some (addTo acc v)) none with
  | none =>
    have h := (foldl_some_isSome addTo vs none).not
    rw [hres] at h
    have hnil : vs = [] := by simpa using h
    simp [hnil]
  | some q =>
    have h := foldl_some_isSome addTo vs none
    rw [hres] at h
    have hne : vs ≠ [] := by simpa using h
    have hsum := foldl_addTo_nanos vs none q hres
    simp [hne, hsum]

theorem magnitudeAt_foldSum_perm (rt r : String) (cs cs' : List Value) (hperm : cs'.Perm cs) :
    magnitudeAt (foldSum rt cs' []) r = magnitudeAt (foldSum rt cs []) r := by
  unfold magnitudeAt
  rw [mapGet_foldSum, mapGet_foldSum,
    foldl_contributions addTo (fun c => mapGet r (quantitiesOf c rt)),
    foldl_contributions addTo (fun c => mapGet r (quantitiesOf c rt))]
  have hvs := hperm.filterMap (fun c => mapGet r (quantitiesOf c rt))
  have hnil : cs'.filterMap (fun c => mapGet r (quantitiesOf c rt)) = [] ↔
      cs.filterMap (fun c => mapGet r (quantitiesOf c rt)) = [] :=
    ⟨fun h => by rw [h] at hvs; exact hvs.symm.eq_nil, fun h => by rw [h] at hvs; exact hvs.eq_nil⟩
  show Option.map _ (List.foldl _ none _) = Option.map _ (List.foldl _ none _)
  rw [foldl_addTo_magnitude, foldl_addTo_magnitude, (hvs.map Quantity.nanos).sum_eq]
  simp only [hnil]

theorem foldl_keepMax_perm (vs vs' : List Quantity) (hperm : vs'.Perm vs) :
    (vs'.foldl (fun acc v => some (keepMax acc v)) none).map Quantity.nanos =
      (vs.foldl (fun acc v => some (keepMax acc v)) none).map Quantity.nanos := by
  cases h' : vs'.foldl (fun acc v => some (keepMax acc v)) none with
  | none =>
    have hn := (foldl_some_isSome keepMax vs' none).not
    rw [h'] at hn
    have hnil : vs' = [] := by simpa using hn
    rw [hnil] at hperm
    rw [hperm.symm.eq_nil]
    rfl
  | some q' =>
    cases h : vs.foldl (fun acc v => some (keepMax acc v)) none with
    | none =>
      have hn := (foldl_some_isSome keepMax vs none).not
      rw [h] at hn
      have hnil : vs = [] := by simpa using hn
      rw [hnil] at hperm
      rw [hperm.eq_nil] at h'
      simp at h'
    | some q =>
      obtain ⟨m', b', -⟩ := foldl_keepMax_spec vs' none q' h'
      obtain ⟨m, b, -⟩ := foldl_keepMax_spec vs none q h
      have hq' : q' ∈ vs' := by
        rcases m' with m' | m'
        · cases m'
        · exact m'
      have hq : q ∈ vs := by
        rcases m with m | m
        · cases m
        · exact m
      have le1 := b q' (hperm.subset hq')
      have le2 := b' q (hperm.symm.subset hq)
      simp only [Option.map_some']
      congr 1
      omega

theorem magnitudeAt_foldMax_perm (rt r : String) (cs cs' : List Value) (hperm : cs'.Perm cs) :
    magnitudeAt (foldMax rt cs' []) r = magnitudeAt (foldMax rt cs []) r := by
  unfold magnitudeAt
  rw [mapGet_foldMax, mapGet_foldMax,
    foldl_contributions keepMax (fun c => mapGet r (quantitiesOf c rt)),
    foldl_contributions keepMax (fun c => mapGet r (quantitiesOf c rt))]
  exact foldl_keepMax_perm _ _ (hperm.filterMap _)

theorem magnitudeAt_effective (initMax total : QMap) (r : String) (eff : Option Quantity)
    (heff : eff =
      match mapGet r initMax with
      | some q => some (effectiveValue (mapGet r total) q)
      | none => none) :
    eff.map Quantity.nanos =
      match magnitudeAt initMax r with
      | some qn =>
        some (match magnitudeAt total r with
          | some tn => max tn qn
          | none => qn)
      | none => none := by
  subst heff
  unfold magnitudeAt
  cases mapGet r initMax with
  | none => rfl
  | some q =>
    simp only [Option.map_some', effectiveValue_nanos]
    cases mapGet r total <;> rfl

theorem sameMagnitudes_of_perm (inits inits' mains mains' : List Value)
    (hinit : inits'.Perm inits) (hmain : mains'.Perm mains) :
    SameMagnitudes (calculateEffective (collect inits mains))
      (calculateEffective (collect inits' mains')) := by
  intro r
  have t1 := magnitudeAt_foldSum_perm "requests" r mains mains' hmain
  have t2 := magnitudeAt_foldSum_perm "limits" r mains mains' hmain
  have m1 := magnitudeAt_foldMax_perm "requests" r inits inits' hinit
  have m2 := magnitudeAt_foldMax_perm "limits" r inits inits' hinit
  refine ⟨t1.symm, t2.symm, m1.symm, m2.symm, ?_, ?_⟩
  · have e := magnitudeAt_effective (foldMax "requests" inits []) (foldSum "requests" mains []) r _
      (calculateEffective_collect_requests inits mains r)
    have e' := magnitudeAt_effective (foldMax "requests" inits' []) (foldSum "requests" mains' [])
      r _ (calculateEffective_collect_requests inits' mains' r)
    unfold magnitudeAt at e e' t1 m1 ⊢
    rw [e, e', t1, m1]
  · have e := magnitudeAt_effective (foldMax "limits" inits []) (foldSum "limits" mains []) r _
      (calculateEffective_collect_limits inits mains r)
    have e' := magnitudeAt_effective (foldMax "limits" inits' []) (foldSum "limits" mains' [])
      r _ (calculateEffective_collect_limits inits' mains' r)
    unfold magnitudeAt at e e' t2 m2 ⊢
    rw [e, e', t2, m2]

/-- C11, as stated, fails: the init containers of `podTieSwapped` are those of
`podTie` in the other order, and the quantity that `InitMaxRequests` binds to
memory is the one written "1Gi" for `podTie` and the one written "1073741824"
for `podTieSwapped`, which are not the same quantity. -/
theorem permuting_a_tie_changes_the_stored_quantity :
    (containersOf podTieSwapped "initContainers").Perm (containersOf podTie "initContainers") ∧
      containersOf podTieSwapped "containers" = containersOf podTie "containers" ∧
      ∃ s s', Aggregate podTie = .ok s ∧ Aggregate podTieSwapped = .ok s' ∧
        mapGet "memory" s.InitMaxRequests = some ⟨1073741824000000000, .BinarySI⟩ ∧
        mapGet "memory" s'.InitMaxRequests = some ⟨1073741824000000000, .DecimalSI⟩ ∧
        mapGet "memory" s.InitMaxRequests ≠ mapGet "memory" s'.InitMaxRequests ∧
        mapGet "memory" s.EffectiveRequests ≠ mapGet "memory" s'.EffectiveRequests :=
  ⟨List.Perm.swap _ _ _, rfl, _, _, rfl, rfl, by decide, by decide, by decide, by decide⟩

/-- C11, amended: for two pod specs whose list fields have the same shape and
whose `initContainers` and `containers` lists are permutations of each other,
`Aggregate` fails alike or returns summaries with the same key sets and, under
every key of the six maps, quantities of the same magnitude. -/
theorem traversal_order_preserves_magnitudes (podSpec podSpec' : List (String × Value))
    (hshape : notSequence podSpec' "initContainers" = notSequence podSpec "initContainers" ∧
      notSequence podSpec' "containers" = notSequence podSpec "containers")
    (hinit : (containersOf podSpec' "initContainers").Perm (containersOf podSpec "initContainers"))
    (hmain : (containersOf podSpec' "containers").Perm (containersOf podSpec "containers")) :
    (∀ err, Aggregate podSpec = .error err → Aggregate podSpec' = .error err) ∧
      ∀ s, Aggregate podSpec = .ok s → ∃ s', Aggregate podSpec' = .ok s' ∧ SameMagnitudes s s' := by
  constructor
  · intro err herr
    rw [Aggregate_eq] at herr ⊢
    rw [hshape.1, hshape.2]
    by_cases h1 : notSequence podSpec "initContainers" = true
    · simpa [h1] using herr
    · by_cases h2 : notSequence podSpec "containers" = true
      · simpa [h1, h2] using herr
      · simp [h1, h2] at herr
  · intro s hs
    obtain ⟨h1, h2, hs⟩ := (Aggregate_ok_iff podSpec s).1 hs
    subst hs
    refine ⟨_, (Aggregate_ok_iff podSpec' _).2 ⟨hshape.1.trans h1, hshape.2.trans h2, rfl⟩, ?_⟩
    exact sameMagnitudes_of_perm _ _ _ _ hinit hmain

/-- C11, amended, at `podTie` and `podTieSwapped`: the summaries of the two
orders have the same magnitudes, 1Gi of memory as init maximum and as effective
request in both. -/
theorem traversal_order_preserves_magnitudes_witness :
    Aggregate podTie = .ok summaryTie ∧
      magnitudeAt summaryTie.InitMaxRequests "memory" = some 1073741824000000000 ∧
      ∃ s', Aggregate podTieSwapped = .ok s' ∧ SameMagnitudes summaryTie s' :=
  ⟨rfl, by decide,
    (traversal_order_preserves_magnitudes podTie podTieSwapped ⟨rfl, rfl⟩
      (List.Perm.swap _ _ _) (List.Perm.refl _)).2 summaryTie rfl⟩

/-! ## The blocks of the report -/

theorem sortStrings_perm (names : List String) : (sortStrings names).Perm names :=
  List.perm_insertionSort _ names

theorem sortStrings_sorted (names : List String) :
    (sortStrings names).Pairwise (fun a b => a.toList ≤ b.toList) :=
  @List.sorted_insertionSort String (fun a b => a.toList ≤ b.toList) _
    ⟨fun a b => le_total a.toList b.toList⟩
    ⟨fun _ _ _ h1 h2 => le_trans h1 h2⟩ names

theorem sortStrings_strict (names : List String) (hn : names.Nodup) :
    (sortStrings names).Pairwise (fun a b => a.toList < b.toList) := by
  have hnd : (sortStrings names).Nodup := (sortStrings_perm names).nodup_iff.2 hn
  have hboth := (sortStrings_sorted names).and hnd
  exact hboth.imp (fun {a b} h =>
    lt_of_le_of_ne h.1 (fun h' => h.2 (String.toList_inj.1 h')))

theorem formatStep_eq (render : Option Quantity → String) (s : Summary) (result res : String) :
    formatStep render s result res = result ++ unlines (blockLines render s res) := by
  have hmem := mem_mapKeys_iff res s.EffectiveLimits
  cases hlim : mapGet res s.EffectiveLimits with
  | none =>
    have hno : res ∉ mapKeys s.EffectiveLimits := by simp [hmem, hlim]
    simp [formatStep, blockLines, requestLines, unlines, hlim, hno, String.append_assoc]
  | some lim =>
    have hyes : res ∈ mapKeys s.EffectiveLimits := by simp [hmem, hlim]
    simp [formatStep, blockLines, requestLines, limitLines, unlines, hlim, hyes,
      String.append_assoc]

theorem foldl_formatStep (render : Option Quantity → String) (s : Summary)
    (names : List String) (result : String) :
    names.foldl (formatStep render s) result =
      result ++ concatAll (names.map (fun r => unlines (blockLines render s r))) := by
  induction names generalizing result with
  | nil => simp [concatAll]
  | cons r rest ih =>
    rw [List.foldl_cons, ih, formatStep_eq]
    simp [concatAll, String.append_assoc]

/-- C16: for a summary whose `EffectiveRequests` has distinct keys, as a Go map
has, `Format` returns the blocks of the keys of `EffectiveRequests`, one block
for each key, in strictly ascending lexicographic order of the names; a block
has its three limits lines exactly when its name is a key of `EffectiveLimits`;
a name that is only a key of `EffectiveLimits` has no block, and the text is
empty when `EffectiveRequests` is empty. -/
theorem format_emits_sorted_blocks (render : Option Quantity → String) (s : Summary)
    (hkeys : DistinctKeys s.EffectiveRequests) :
    (∃ names : List String,
        names.Pairwise (fun a b => a.toList < b.toList) ∧
        (∀ r, r ∈ names ↔ r ∈ mapKeys s.EffectiveRequests) ∧
        names.length = s.EffectiveRequests.length ∧
        s.Format render = concatAll (names.map (fun r => unlines (blockLines render s r)))) ∧
      (∀ r, blockLines render s r =
        if r ∈ mapKeys s.EffectiveLimits then
          requestLines render s r ++ limitLines render s r ++ [""]
        else requestLines render s r ++ [""]) ∧
      (s.EffectiveRequests = [] → s.Format render = "") := by
  refine ⟨⟨sortStrings (mapKeys s.EffectiveRequests), sortStrings_strict _ hkeys, ?_, ?_, ?_⟩,
    ?_, ?_⟩
  · intro r
    exact (sortStrings_perm _).mem_iff
  · rw [(sortStrings_perm _).length_eq]
    simp [mapKeys]
  · unfold Summary.Format
    rw [foldl_formatStep]
    simp
  · intro r
    by_cases hr : r ∈ mapKeys s.EffectiveLimits <;> simp [blockLines, hr]
  · intro hnil
    simp [Summary.Format, hnil, mapKeys, sortStrings]

/-- C16 at `summaryReport`: the block of cpu comes before the block of memory,
cpu has limits lines and memory has none, and gpu, a key of `EffectiveLimits`
only, has no block. -/
theorem format_emits_sorted_blocks_witness :
    DistinctKeys summaryReport.EffectiveRequests ∧
      summaryReport.Format renderNanos =
        "cpu:\n  InitMax Requests: 9n\n  Total Requests:   5n\n  Effective Request: 9n\n" ++
        "  InitMax Limits:   2n\n  Total Limits:     0\n  Effective Limit:  2n\n\n" ++
        "memory:\n  InitMax Requests: 7n\n  Total Requests:   0\n  Effective Request: 7n\n\n" ∧
      ∃ names : List String,
        names.Pairwise (fun a b => a.toList < b.toList) ∧
        (∀ r, r ∈ names ↔ r ∈ mapKeys summaryReport.EffectiveRequests) ∧
        names.length = summaryReport.EffectiveRequests.length ∧
        summaryReport.Format renderNanos =
          concatAll (names.map (fun r => unlines (blockLines renderNanos summaryReport r))) :=
  ⟨by decide, by rfl, (format_emits_sorted_blocks renderNanos summaryReport (by decide)).1⟩

/-! ## Two invocations -/

theorem distinctKeys_perm {β : Type} (m m' : List (String × β)) (hperm : m'.Perm m)
    (hm : DistinctKeys m) : DistinctKeys m' := by
  unfold DistinctKeys mapKeys at hm ⊢
  exact ((hperm.map Prod.fst).nodup_iff).2 hm

theorem mapGet_perm {β : Type} (r : String) (m m' : List (String × β)) (hperm : m'.Perm m)
    (hm : DistinctKeys m) : mapGet r m' = mapGet r m := by
  have hm' := distinctKeys_perm m m' hperm hm
  cases hg : mapGet r m with
  | none =>
    rw [mapGet_eq_none_iff] at hg ⊢
    intro hmem
    apply hg
    unfold mapKeys at hmem ⊢
    exact (hperm.map Prod.fst).mem_iff.1 hmem
  | some v =>
    exact mapGet_of_mem r v m' hm' (hperm.mem_iff.2 (mem_of_mapGet r v m hg))

/-- The quantities a container contributes when its loops run in a given order. -/
theorem mapGet_quantities_in (o : RangeOrder) (ho : o.Valid) (isInit : Bool) (i : Nat)
    (rt r : String) (resources : List (String × Value)) (hres : DistinctKeys resources) :
    DistinctKeys (o.quantities isInit i rt (parseEntries (o.entries isInit i rt resources))) ∧
      mapGet r (o.quantities isInit i rt (parseEntries (o.entries isInit i rt resources))) =
        mapGet r (parseEntries resources) := by
  have hd := distinctKeys_parseEntries (o.entries isInit i rt resources)
  refine ⟨distinctKeys_perm _ _ (ho.2.1 isInit i rt _) hd, ?_⟩
  rw [mapGet_perm r _ _ (ho.2.1 isInit i rt _) hd,
    mapGet_parseEntries r _ (distinctKeys_perm _ _ (ho.1 isInit i rt resources) hres),
    mapGet_parseEntries r _ hres, mapGet_perm r _ _ (ho.1 isInit i rt resources) hres]

theorem updateMax_content (d d' src src' : QMap) (hsrc : DistinctKeys src)
    (hsrc' : DistinctKeys src') (r : String) (hd : mapGet r d' = mapGet r d)
    (hs : mapGet r src' = mapGet r src) :
    mapGet r (updateMax d' src') = mapGet r (updateMax d src) := by
  rw [mapGet_updateMax r d' src' hsrc', mapGet_updateMax r d src hsrc, hd, hs]

theorem sumValues_content (d d' src src' : QMap) (hsrc : DistinctKeys src)
    (hsrc' : DistinctKeys src') (r : String) (hd : mapGet r d' = mapGet r d)
    (hs : mapGet r src' = mapGet r src) :
    mapGet r (sumValues d' src') = mapGet r (sumValues d src) := by
  rw [mapGet_sumValues r d' src' hsrc', mapGet_sumValues r d src hsrc, hd, hs]

theorem processContainerIn_init (o : RangeOrder) (i : Nat) (s : Summary)
    (container : List (String × Value)) :
    processContainerIn o i s true (.map container) =
      { s with
        InitMaxRequests := updateMax s.InitMaxRequests
          (o.quantities true i "requests"
            (parseEntries (o.entries true i "requests" (entriesOf (.map container) "requests"))))
        InitMaxLimits := updateMax s.InitMaxLimits
          (o.quantities true i "limits"
            (parseEntries (o.entries true i "limits" (entriesOf (.map container) "limits")))) } := by
  simp [processContainerIn, processResourceIn, getTargetMap, setTargetMap, entriesOf]

theorem processContainerIn_main (o : RangeOrder) (i : Nat) (s : Summary)
    (container : List (String × Value)) :
    processContainerIn o i s false (.map container) =
      { s with
        TotalRequests := sumValues s.TotalRequests
          (o.quantities false i "requests"
            (parseEntries (o.entries false i "requests" (entriesOf (.map container) "requests"))))
        TotalLimits := sumValues s.TotalLimits
          (o.quantities false i "limits"
            (parseEntries (o.entries false i "limits" (entriesOf (.map container) "limits")))) } := by
  simp [processContainerIn, processResourceIn, getTargetMap, setTargetMap, entriesOf]

/-- The invariant that links a run in some order to the run in list order. -/
theorem processContainerIn_content (o : RangeOrder) (ho : o.Valid) (i : Nat) (isInit : Bool)
    (c : Value)
    (hkeys : DistinctKeys (entriesOf c "requests") ∧ DistinctKeys (entriesOf c "limits"))
    (s s' : Summary) (hs : SameContent s s')
    (hd : DistinctKeys s.InitMaxRequests ∧ DistinctKeys s.InitMaxLimits) :
    SameContent (processContainerIn o i s isInit c) (processContainer s' isInit c) ∧
      DistinctKeys (processContainerIn o i s isInit c).InitMaxRequests ∧
      DistinctKeys (processContainerIn o i s isInit c).InitMaxLimits := by
  cases c with
  | map container =>
    have q1 := fun r => mapGet_quantities_in o ho isInit i "requests" r
      (entriesOf (.map container) "requests") hkeys.1
    have q2 := fun r => mapGet_quantities_in o ho isInit i "limits" r
      (entriesOf (.map container) "limits") hkeys.2
    cases isInit with
    | true =>
      rw [processContainerIn_init, processContainer_init]
      refine ⟨?_, distinctKeys_updateMax _ _ hd.1, distinctKeys_updateMax _ _ hd.2⟩
      intro r
      obtain ⟨h1, h2, h3, h4, h5, h6⟩ := hs r
      refine ⟨h1, h2, ?_, ?_, h5, h6⟩
      · exact updateMax_content _ _ _ _ (distinctKeys_parseEntries _) (q1 r).1 r h3 (q1 r).2
      · exact updateMax_content _ _ _ _ (distinctKeys_parseEntries _) (q2 r).1 r h4 (q2 r).2
    | false =>
      rw [processContainerIn_main, processContainer_main]
      refine ⟨?_, hd.1, hd.2⟩
      intro r
      obtain ⟨h1, h2, h3, h4, h5, h6⟩ := hs r
      refine ⟨?_, ?_, h3, h4, h5, h6⟩
      · exact sumValues_content _ _ _ _ (distinctKeys_parseEntries _) (q1 r).1 r h1 (q1 r).2
      · exact sumValues_content _ _ _ _ (distinctKeys_parseEntries _) (q2 r).1 r h2 (q2 r).2
  | _ => exact ⟨hs, hd.1, hd.2⟩

theorem walkIn_content (o : RangeOrder) (ho : o.Valid) (isInit : Bool) (cs : List Value)
    (hkeys : ∀ c ∈ cs, DistinctKeys (entriesOf c "requests") ∧ DistinctKeys (entriesOf c "limits"))
    (i : Nat) (s s' : Summary) (hs : SameContent s s')
    (hd : DistinctKeys s.InitMaxRequests ∧ DistinctKeys s.InitMaxLimits) :
    SameContent (walkIn o isInit i cs s) (cs.foldl (fun s c => processContainer s isInit c) s') ∧
      DistinctKeys (walkIn o isInit i cs s).InitMaxRequests ∧
      DistinctKeys (walkIn o isInit i cs s).InitMaxLimits := by
  induction cs generalizing i s s' with
  | nil => exact ⟨hs, hd.1, hd.2⟩
  | cons c rest ih =>
    obtain ⟨k1, k2, k3⟩ := processContainerIn_content o ho i isInit c
      (hkeys c (List.mem_cons_self _ _)) s s' hs hd
    exact ih (fun c' hc' => hkeys c' (List.mem_cons_of_mem _ hc')) (i + 1) _ _ k1 ⟨k2, k3⟩

theorem calculateEffectiveIn_content (o : RangeOrder) (ho : o.Valid) (s s' : Summary)
    (hs : SameContent s s')
    (hd : DistinctKeys s.InitMaxRequests ∧ DistinctKeys s.InitMaxLimits)
    (hd' : DistinctKeys s'.InitMaxRequests ∧ DistinctKeys s'.InitMaxLimits) :
    SameContent (calculateEffectiveIn o s) (calculateEffective s') := by
  intro r
  obtain ⟨h1, h2, h3, h4, h5, h6⟩ := hs r
  refine ⟨h1, h2, h3, h4, ?_, ?_⟩
  · simp only [calculateEffectiveIn, calculateEffective]
    rw [mapGet_effectiveOf r _ _ _ (distinctKeys_perm _ _ (ho.2.2 "requests" _) hd.1),
      mapGet_effectiveOf r _ _ _ hd'.1, mapGet_perm r _ _ (ho.2.2 "requests" _) hd.1, h1, h3, h5]
  · simp only [calculateEffectiveIn, calculateEffective]
    rw [mapGet_effectiveOf r _ _ _ (distinctKeys_perm _ _ (ho.2.2 "limits" _) hd.2),
      mapGet_effectiveOf r _ _ _ hd'.2, mapGet_perm r _ _ (ho.2.2 "limits" _) hd.2, h2, h4, h6]

theorem processContainersIn_eq (o : RangeOrder) (podSpec : List (String × Value))
    (field : String) (s : Summary) (isInit : Bool) :
    processContainersIn o podSpec field s isInit =
      if notSequence podSpec field then
        .error { field := field, cause := { field := field } }
      else .ok (walkIn o isInit 0 (containersOf podSpec field) s) := by
  unfold processContainersIn NestedSlice notSequence containersOf
  cases mapGet field podSpec with
  | none => simp [walkIn]
  | some v => cases v <;> simp [walkIn]

theorem AggregateIn_eq (o : RangeOrder) (podSpec : List (String × Value)) :
    AggregateIn o podSpec =
      if notSequence podSpec "initContainers" then
        .error { field := "initContainers", cause := { field := "initContainers" } }
      else if notSequence podSpec "containers" then
        .error { field := "containers", cause := { field := "containers" } }
      else
        .ok (calculateEffectiveIn o
          (walkIn o false 0 (containersOf podSpec "containers")
            (walkIn o true 0 (containersOf podSpec "initContainers") NewSummary))) := by
  unfold AggregateIn
  simp only [processContainersIn_eq]
  by_cases h1 : notSequence podSpec "initContainers" = true
  · simp [h1]
  · by_cases h2 : notSequence podSpec "containers" = true
    · simp [h1, h2]
    · simp [h1, h2]

theorem sameContent_refl (s : Summary) : SameContent s s :=
  fun _ => ⟨rfl, rfl, rfl, rfl, rfl, rfl⟩

theorem sameContent_symm (s s' : Summary) (h : SameContent s s') : SameContent s' s := by
  intro r
  obtain ⟨h1, h2, h3, h4, h5, h6⟩ := h r
  exact ⟨h1.symm, h2.symm, h3.symm, h4.symm, h5.symm, h6.symm⟩

theorem sameContent_trans (s s' s'' : Summary) (h : SameContent s s') (h' : SameContent s' s'') :
    SameContent s s'' := by
  intro r
  obtain ⟨h1, h2, h3, h4, h5, h6⟩ := h r
  obtain ⟨k1, k2, k3, k4, k5, k6⟩ := h' r
  exact ⟨h1.trans k1, h2.trans k2, h3.trans k3, h4.trans k4, h5.trans k5, h6.trans k6⟩

/-- A run in any order ends like the run in list order: in the same error, or in
a summary with the same content. -/
theorem AggregateIn_content (o : RangeOrder) (ho : o.Valid) (podSpec : List (String × Value))
    (hkeys : ∀ c ∈ containersOf podSpec "initContainers" ++ containersOf podSpec "containers",
      DistinctKeys (entriesOf c "requests") ∧ DistinctKeys (entriesOf c "limits")) :
    (∀ err, AggregateIn o podSpec = .error err ↔ Aggregate podSpec = .error err) ∧
      ∀ s, AggregateIn o podSpec = .ok s →
        ∃ s', Aggregate podSpec = .ok s' ∧ SameContent s s' := by
  rw [AggregateIn_eq, Aggregate_eq]
  by_cases h1 : notSequence podSpec "initContainers" = true
  · simp [h1]
  · by_cases h2 : notSequence podSpec "containers" = true
    · simp [h1, h2]
    · simp only [h1, h2]
      refine ⟨by simp, ?_⟩
      intro s hs
      have hs' : s = calculateEffectiveIn o
          (walkIn o false 0 (containersOf podSpec "containers")
            (walkIn o true 0 (containersOf podSpec "initContainers") NewSummary)) := by
        simpa [eq_comm] using hs
      subst hs'
      refine ⟨calculateEffective (collect (containersOf podSpec "initContainers")
        (containersOf podSpec "containers")), by simp, ?_⟩
      have hnew : DistinctKeys NewSummary.InitMaxRequests ∧ DistinctKeys NewSummary.InitMaxLimits :=
        ⟨distinctKeys_nil, distinctKeys_nil⟩
      obtain ⟨a1, a2, a3⟩ := walkIn_content o ho true (containersOf podSpec "initContainers")
        (fun c hc => hkeys c (List.mem_append_left _ hc)) 0 NewSummary NewSummary
        (sameContent_refl _) hnew
      obtain ⟨b1, b2, b3⟩ := walkIn_content o ho false (containersOf podSpec "containers")
        (fun c hc => hkeys c (List.mem_append_right _ hc)) 0 _ _ a1 ⟨a2, a3⟩
      have hcanon : (containersOf podSpec "containers").foldl
            (fun s c => processContainer s false c)
            ((containersOf podSpec "initContainers").foldl
              (fun s c => processContainer s true c) NewSummary) =
          collect (containersOf podSpec "initContainers") (containersOf podSpec "containers") := by
        rw [foldl_processContainer_init, foldl_processContainer_main]
        simp [NewSummary, collect]
      rw [hcanon] at b1
      refine calculateEffectiveIn_content o ho _ _ b1 ⟨b2, b3⟩ ⟨?_, ?_⟩
      · exact distinctKeys_foldMax "requests" _ [] distinctKeys_nil
      · exact distinctKeys_foldMax "limits" _ [] distinctKeys_nil

theorem processContainerIn_listOrder (i : Nat) (s : Summary) (isInit : Bool) (c : Value) :
    processContainerIn listOrder i s isInit c = processContainer s isInit c := by
  cases c <;> rfl

theorem walkIn_listOrder (isInit : Bool) (cs : List Value) (i : Nat) (s : Summary) :
    walkIn listOrder isInit i cs s = cs.foldl (fun s c => processContainer s isInit c) s := by
  induction cs generalizing i s with
  | nil => rfl
  | cons c rest ih =>
    simp only [walkIn, List.foldl_cons, processContainerIn_listOrder]
    exact ih (i + 1) _

theorem AggregateIn_listOrder (podSpec : List (String × Value)) :
    AggregateIn listOrder podSpec = Aggregate podSpec := by
  unfold AggregateIn Aggregate processContainersIn processContainers
  simp only [walkIn_listOrder]
  rfl

theorem valid_listOrder : listOrder.Valid :=
  ⟨fun _ _ _ m => List.Perm.refl m, fun _ _ _ m => List.Perm.refl m, fun _ m => List.Perm.refl m⟩

theorem valid_reverseOrder : reverseOrder.Valid :=
  ⟨fun _ _ _ m => List.reverse_perm m, fun _ _ _ m => List.reverse_perm m,
    fun _ m => List.reverse_perm m⟩

/-- C13: two invocations of `Aggregate` on the same pod spec (its maps having
distinct keys, as Go maps do), whatever the orders in which their `range` loops
visit the maps, end alike: in the same error, or in summaries that bind every
resource name to the same quantity in each of the six maps.  Each invocation
starts from the fresh summary, reads the pod spec only, and the invocation that
visits in list order is `Aggregate`. -/
theorem aggregate_twice_gives_identical_content (o o' : RangeOrder) (ho : o.Valid)
    (ho' : o'.Valid) (podSpec : List (String × Value))
    (hkeys : ∀ c ∈ containersOf podSpec "initContainers" ++ containersOf podSpec "containers",
      DistinctKeys (entriesOf c "requests") ∧ DistinctKeys (entriesOf c "limits")) :
    (∀ err, AggregateIn o podSpec = .error err ↔ AggregateIn o' podSpec = .error err) ∧
      (∀ s, AggregateIn o podSpec = .ok s →
        ∃ s', AggregateIn o' podSpec = .ok s' ∧ SameContent s s') ∧
      AggregateIn listOrder podSpec = Aggregate podSpec := by
  obtain ⟨e1, c1⟩ := AggregateIn_content o ho podSpec hkeys
  obtain ⟨e2, c2⟩ := AggregateIn_content o' ho' podSpec hkeys
  refine ⟨fun err => (e1 err).trans (e2 err).symm, ?_, AggregateIn_listOrder podSpec⟩
  intro s hs
  obtain ⟨s0, hs0, hss0⟩ := c1 s hs
  cases hres : AggregateIn o' podSpec with
  | error err =>
    rw [(e2 err).1 hres] at hs0
    cases hs0
  | ok s' =>
    obtain ⟨s0', hs0', hss0'⟩ := c2 s' hres
    rw [hs0] at hs0'
    cases hs0'
    exact ⟨s', rfl, sameContent_trans _ _ _ hss0 (sameContent_symm _ _ hss0')⟩

/-- C13 at `podMixed`: the invocation that visits every map in reverse order
returns a summary with the content of `summaryMixed`, the one of the invocation
in list order. -/
theorem aggregate_twice_gives_identical_content_witness :
    listOrder.Valid ∧ reverseOrder.Valid ∧ AggregateIn listOrder podMixed = .ok summaryMixed ∧
      ∃ s', AggregateIn reverseOrder podMixed = .ok s' ∧ SameContent summaryMixed s' :=
  ⟨valid_listOrder, valid_reverseOrder, rfl,
    (aggregate_twice_gives_identical_content listOrder reverseOrder valid_listOrder
      valid_reverseOrder podMixed (by decide)).2.1 summaryMixed rfl⟩

end Aggregator
